import Mathlib

/-!
# NotesTool-GO: a verification development

A shallow embedding of `notestool.go` (one Go source file): the note store
(`loadNotes`, `saveNotes`), the substitution cipher (`encrypt`, `decrypt`) and
the interactive controller (`showNotes`, `addNote`, `deleteNote`, the loop of
`main`), followed by theorems about them.

## Modelling conventions

* A Go `string` holding valid UTF-8 text is modelled by the list of its code
  points (`GoString := List Char`).  Go's `for i, char := range message`
  yields every code point together with its *byte* offset; the offset is
  recovered here with `Char.utf8Size`.
* Go `int` arithmetic is done in `Int`; Go's `%` truncates toward zero, which
  is `Int.tmod`.  All values that occur are far below 2^63, so no wrap-around
  is involved.
* Terminal input (`ReadString`, `Scanf`) and the clock (`time.Now`) are
  explicit arguments of the operations that consume them.
* The backing file is an `Option GoString`: `none` when the file does not
  exist, `some text` otherwise.  `os.Exit(1)` and run-time panics are explicit
  results.
-/

namespace NotesTool

/-! ## Strings -/

/-- A Go `string` holding valid UTF-8 text, as the list of its code points. -/
abbrev GoString := List Char

/-- Go `len(s)`: the number of bytes of the UTF-8 encoding. -/
def byteLen : GoString → Nat
  | [] => 0
  | c :: cs => c.utf8Size + byteLen cs

/-- Go's conversion `string(v)` of an integer value: the UTF-8 encoding of the
code point `v`, or of U+FFFD when `v` is not a valid code point. -/
def runeString (v : Int) : GoString :=
  if 0 ≤ v ∧ (v < 0xD800 ∨ (0xDFFF < v ∧ v < 0x110000)) then [Char.ofNat v.toNat]
  else [Char.ofNat 0xFFFD]

/-! ## Cipher (`encrypt`, `decrypt`) -/

/-- The constant `key := "KOODJOHVI"` of `encrypt` and `decrypt`. -/
def key : GoString := "KOODJOHVI".toList

/-- The value `keyLen := len(key)`. -/
def keyLen : Nat := byteLen key

/-- The value `shift := int(key[i%keyLen]) - 'A'` for the byte offset `i`.
The key is ASCII, so its bytes are its characters; the index is always in
range, the default of `getD` is never used. -/
def shift (i : Nat) : Int :=
  ((key.getD (i % keyLen) 'A').toNat : Int) - ('A'.toNat : Int)

/-- One iteration of the loop of `encrypt`: the text appended to `encrypted`
for the code point `char` found at byte offset `i`. -/
def encryptRune (i : Nat) (char : Char) : GoString :=
  if 'A'.toNat ≤ char.toNat ∧ char.toNat ≤ 'Z'.toNat then
    runeString (((char.toNat : Int) + shift i - ('A'.toNat : Int)).tmod 26 + ('A'.toNat : Int))
  else if 'a'.toNat ≤ char.toNat ∧ char.toNat ≤ 'z'.toNat then
    runeString (((char.toNat : Int) + shift i - ('a'.toNat : Int)).tmod 26 + ('a'.toNat : Int))
  else
    [char]

/-- The loop of `encrypt`, started at byte offset `i` on the rest of the
message. -/
def encryptFrom (i : Nat) : GoString → GoString
  | [] => []
  | char :: rest => encryptRune i char ++ encryptFrom (i + char.utf8Size) rest

/-- The function `encrypt(message string) string`. -/
def encrypt (message : GoString) : GoString := encryptFrom 0 message

/-- One iteration of the loop of `decrypt`. -/
def decryptRune (i : Nat) (char : Char) : GoString :=
  if 'A'.toNat ≤ char.toNat ∧ char.toNat ≤ 'Z'.toNat then
    runeString (((char.toNat : Int) - shift i + 26 - ('A'.toNat : Int)).tmod 26 + ('A'.toNat : Int))
  else if 'a'.toNat ≤ char.toNat ∧ char.toNat ≤ 'z'.toNat then
    runeString (((char.toNat : Int) - shift i + 26 - ('a'.toNat : Int)).tmod 26 + ('a'.toNat : Int))
  else
    [char]

/-- The loop of `decrypt`, started at byte offset `i`. -/
def decryptFrom (i : Nat) : GoString → GoString
  | [] => []
  | char :: rest => decryptRune i char ++ decryptFrom (i + char.utf8Size) rest

/-- The function `decrypt(message string) string`. -/
def decrypt (message : GoString) : GoString := decryptFrom 0 message

/-! ## Reference cipher, following the specification's wording -/

/-- Uppercase Latin letter. -/
def isUpper (c : Char) : Prop := 'A'.toNat ≤ c.toNat ∧ c.toNat ≤ 'Z'.toNat

/-- Lowercase Latin letter. -/
def isLower (c : Char) : Prop := 'a'.toNat ≤ c.toNat ∧ c.toNat ≤ 'z'.toNat

instance (c : Char) : Decidable (isUpper c) := by unfold isUpper; infer_instance

instance (c : Char) : Decidable (isLower c) := by unfold isLower; infer_instance

/-- Uppercase or lowercase Latin letter. -/
def isLetter (c : Char) : Prop := isUpper c ∨ isLower c

instance (c : Char) : Decidable (isLetter c) := by unfold isLetter; infer_instance

/-- Reference: the alphabet position of a key character, A=0..Z=25. -/
def alphabetPosition (k : Char) : Nat := k.toNat - 'A'.toNat

/-- Reference: the key character used at position `i`, the key being cycled by
position modulo the key length. -/
def keyChar (i : Nat) : Char := key.getD (i % key.length) 'A'

/-- Reference: rotate a letter forward by `k` within the 26 letters of its own
case, wrapping; any other character is left as it is. -/
def rotateForward (c : Char) (k : Nat) : Char :=
  if isUpper c then Char.ofNat ('A'.toNat + (c.toNat - 'A'.toNat + k) % 26)
  else if isLower c then Char.ofNat ('a'.toNat + (c.toNat - 'a'.toNat + k) % 26)
  else c

/-- Reference: rotate a letter backward by `k` within the 26 letters of its own
case, wrapping; any other character is left as it is. -/
def rotateBackward (c : Char) (k : Nat) : Char :=
  if isUpper c then Char.ofNat ('A'.toNat + (c.toNat - 'A'.toNat + 26 - k % 26) % 26)
  else if isLower c then Char.ofNat ('a'.toNat + (c.toNat - 'a'.toNat + 26 - k % 26) % 26)
  else c

/-- Reference Vigenere step: what the specification asks of the character at
position `i`. -/
def vigenereChar (i : Nat) (c : Char) : Char :=
  rotateForward c (alphabetPosition (keyChar i))

/-! ## Library functions used by the store and the controller

These functions belong to the Go standard library, not to the repository;
they are written out here after their documented behaviour. -/

/-- The first occurrence of the one-character separator `sep` in `s`: the text
before it and the text after it (`strings.Index` with the two slices taken
by `strings.SplitN`), or `none` when `sep` does not occur. -/
def cut (sep : Char) : GoString → Option (GoString × GoString)
  | [] => none
  | c :: cs =>
    if c = sep then some ([], cs)
    else
      match cut sep cs with
      | none => none
      | some (before, after) => some (c :: before, after)

/-- Go `strings.SplitN(s, sep, n)` for a one-character separator and `n ≥ 0`:
at most `n` substrings, the last one being the unsplit remainder. -/
def splitN (sep : Char) : Nat → GoString → List GoString
  | 0, _ => []
  | 1, s => [s]
  | n + 2, s =>
    match cut sep s with
    | none => [s]
    | some (before, after) => before :: splitN sep (n + 1) after

/-- Go `fmt.Sprint` of a `bool`. -/
def sprintBool (b : Bool) : GoString := if b then "true".toList else "false".toList

/-- Go `bufio.MaxScanTokenSize`: the size limit of the buffer of a
`bufio.Scanner` created by `bufio.NewScanner`. -/
def maxScanTokenSize : Nat := 64 * 1024

/-- The helper `dropCR` of `bufio.ScanLines`: drop one trailing `\r`. -/
def dropCR (data : GoString) : GoString :=
  if data.getLast? = some '\r' then data.dropLast else data

/-- The tokens a `bufio.Scanner` with the default split function
`bufio.ScanLines` delivers for the rest of a file, `cur` being the part of the
current line already read.  A line ends at `\n` or at the end of the file (an
empty final line is no token); one trailing `\r` is dropped.  A line, its `\r`
included, has to fit into the buffer together with its `\n`: when it has
`maxScanTokenSize` bytes or more, `Scan` stops with `ErrTooLong`, modelled by
`none`. -/
def scanLinesFrom (cur : GoString) : GoString → Option (List GoString)
  | [] =>
    if cur = [] then some []
    else if byteLen cur < maxScanTokenSize then some [dropCR cur]
    else none
  | c :: rest =>
    if c = '\n' then
      if byteLen cur < maxScanTokenSize then
        match scanLinesFrom [] rest with
        | some lines => some (dropCR cur :: lines)
        | none => none
      else none
    else scanLinesFrom (cur ++ [c]) rest

/-- The whole scan of a file: the lines `scanner.Text()` returns while
`scanner.Scan()` is true, or `none` when `scanner.Err()` is not nil at the
end. -/
def scanLines (text : GoString) : Option (List GoString) := scanLinesFrom [] text

/-- Go `unicode.IsSpace`, which `strings.TrimSpace` uses. -/
def isSpace (c : Char) : Bool :=
  let r := c.toNat
  r = 0x09 || r = 0x0A || r = 0x0B || r = 0x0C || r = 0x0D || r = 0x20 || r = 0x85 ||
  r = 0xA0 || r = 0x1680 || (0x2000 ≤ r && r ≤ 0x200A) || r = 0x2028 || r = 0x2029 ||
  r = 0x202F || r = 0x205F || r = 0x3000

/-- Go `strings.TrimSpace`: remove all leading and trailing white space. -/
def trimSpace (s : GoString) : GoString :=
  ((s.dropWhile isSpace).reverse.dropWhile isSpace).reverse

/-- Go `unicode.ToLower` of one code point.  The case table for code points
above U+007F is not part of the repository: it is the parameter `table`. -/
def toLowerRune (table : Char → Char) (c : Char) : Char :=
  if c.toNat < 128 then
    if 'A'.toNat ≤ c.toNat ∧ c.toNat ≤ 'Z'.toNat then Char.ofNat (c.toNat + ('a'.toNat - 'A'.toNat))
    else c
  else table c

/-- Go `strings.ToLower`. -/
def toLower (table : Char → Char) (s : GoString) : GoString := s.map (toLowerRune table)

/-- Go slice expression `s[:hi]`, `none` standing for the run-time panic
"slice bounds out of range".  The capacity of the slice is not tracked: the
bound checked is the length, which is never larger. -/
def sliceTo {α : Type} (s : List α) (hi : Int) : Option (List α) :=
  if 0 ≤ hi ∧ hi ≤ (s.length : Int) then some (s.take hi.toNat) else none

/-- Go slice expression `s[lo:]`, `none` standing for the run-time panic
"slice bounds out of range". -/
def sliceFrom {α : Type} (s : List α) (lo : Int) : Option (List α) :=
  if 0 ≤ lo ∧ lo ≤ (s.length : Int) then some (s.drop lo.toNat) else none

/-- Go `fmt.Sprintf("%03d", n)` for `n ≥ 0`: decimal, padded with zeros to at
least three digits. -/
def sprintf03d (n : Nat) : GoString :=
  let digits := Nat.toDigits 10 n
  List.replicate (3 - digits.length) '0' ++ digits

/-! ## Data model -/

/-- The type `Note`. -/
structure Note where
  Name : GoString
  IsEncrypted : Bool
  Timestamp : GoString
  Content : GoString
deriving DecidableEq

/-! ## Store (`loadNotes`, `saveNotes`) -/

/-- The body of the loop of `loadNotes` for one line: `strings.SplitN(line,
":", 4)`, and a `Note` when that gives exactly 4 parts. -/
def parseLine (line : GoString) : Option Note :=
  match splitN ':' 4 line with
  | [p0, p1, p2, p3] =>
    some { Name := p0, IsEncrypted := decide (p1 = "true".toList), Timestamp := p2, Content := p3 }
  | _ => none

/-- The loop `for scanner.Scan() { ... }` of `loadNotes` over the lines the
scanner delivers: the notes appended to `notes`, in order. -/
def loadLines : List GoString → List Note
  | [] => []
  | line :: rest =>
    match parseLine line with
    | some note => note :: loadLines rest
    | none => loadLines rest

/-- The function `loadNotes(filename string) []Note`, on the content of the file
(`none`: the file does not exist).  The result `none` is the exit of the
process with status 1 after "Error reading file:".  Failures of the operating
system while opening or reading are outside the model. -/
def loadNotes (file : Option GoString) : Option (List Note) :=
  match file with
  | none => some []
  | some text =>
    match scanLines text with
    | some lines => some (loadLines lines)
    | none => none

/-- The text `saveNotes` writes for one note. -/
def recordLine (note : Note) : GoString :=
  note.Name ++ ":".toList ++ sprintBool note.IsEncrypted ++ ":".toList ++ note.Timestamp ++
    ":".toList ++ note.Content ++ "\n".toList

/-- The function `saveNotes(filename string, notes []Note)`: the content of the
file after the call (the file is created or truncated, then every note is
written as one line).  Failures of the operating system are outside the
model. -/
def saveNotes : List Note → GoString
  | [] => []
  | note :: rest => recordLine note ++ saveNotes rest

/-! ## Interactive controller -/

/-- The colour constants. -/
def colorReset : GoString := "\x1b[0m".toList

/-- ANSI escape code for green. -/
def colorGreen : GoString := "\x1b[32m".toList

/-- ANSI escape code for yellow. -/
def colorYellow : GoString := "\x1b[33m".toList

/-- ANSI escape code for cyan. -/
def colorCyan : GoString := "\x1b[36m".toList

/-- The content `showNotes` prints for a note: the stored content, decrypted
when the note is flagged as encrypted. -/
def displayContent (note : Note) : GoString :=
  if note.IsEncrypted then decrypt note.Content else note.Content

/-- The line `showNotes` prints for the note of zero-based index `i`. -/
def showLine (i : Nat) (note : Note) : GoString :=
  colorYellow ++ sprintf03d (i + 1) ++ colorReset ++ " - ".toList ++ colorGreen ++ "[".toList ++
    note.Name ++ "]".toList ++ colorReset ++ " ".toList ++ displayContent note ++ " ".toList ++
    colorCyan ++ "[".toList ++ note.Timestamp ++ "]".toList ++ colorReset

/-- The lines printed by the loop of `showNotes`, `i` being the index of the
first note of the list. -/
def showLinesFrom (i : Nat) : List Note → List GoString
  | [] => []
  | note :: rest => showLine i note :: showLinesFrom (i + 1) rest

/-- The function `showNotes(notes []Note)`: the lines it prints.  It has no
other effect. -/
def showNotes (notes : List Note) : List GoString :=
  if notes.length = 0 then ["No notes available.".toList]
  else "Notes:".toList :: (showLinesFrom 0 notes ++ [[]])

/-- What `addNote` and `deleteNote` leave behind: the collection, the flag
`werePurged`, and the message printed last. -/
structure Session where
  notes : List Note
  werePurged : Bool
  message : String
deriving DecidableEq

/-- The function `addNote(notes *[]Note, werePurged *bool)`.  The arguments
`name`, `content` and `encryptChoice` are the lines `reader.ReadString` returns
at the three prompts (a later one is not read when an earlier one is
rejected), `now` is `time.Now().Format("2006-01-02 15:04:05")`, and `table` is
the case table of `strings.ToLower` above U+007F. -/
def addNote (table : Char → Char) (notes : List Note) (werePurged : Bool)
    (name content encryptChoice now : GoString) : Session :=
  let name := trimSpace name
  if name = [] then
    { notes := notes, werePurged := werePurged, message := "Note name cannot be empty." }
  else
    let content := trimSpace content
    if content = [] then
      { notes := notes, werePurged := werePurged, message := "Note content cannot be empty." }
    else
      let encryptChoice := trimSpace (toLower table encryptChoice)
      if encryptChoice = "y".toList then
        { notes := notes ++ [{ Name := name, IsEncrypted := true, Timestamp := now,
                               Content := encrypt content }],
          werePurged := true,
          message := "Encrypted note added successfully." }
      else if encryptChoice ≠ "n".toList then
        { notes := notes ++ [{ Name := name, IsEncrypted := false, Timestamp := now,
                               Content := content }],
          werePurged := true,
          message := "Warning: invalid input was defaulted to 'n', non-encrypted note was added." }
      else
        { notes := notes ++ [{ Name := name, IsEncrypted := false, Timestamp := now,
                               Content := content }],
          werePurged := true,
          message := "Non-encrypted note added successfully." }

/-- The function `deleteNote(notes *[]Note, werePurged *bool)`.  The argument
`scan` is the result of `fmt.Scanf("%d\n", &choice)`: `none` for a scan error,
`some choice` otherwise.  The result `none` is a run-time panic of a slice
expression. -/
def deleteNote (notes : List Note) (werePurged : Bool) (scan : Option Int) : Option Session :=
  if notes.length = 0 then
    if werePurged then
      some { notes := notes, werePurged := werePurged,
             message := "You already purged all of your most wildest ideas." }
    else
      some { notes := notes, werePurged := werePurged,
             message := "The collection is already empty." }
  else
    match scan with
    | none =>
      some { notes := notes, werePurged := werePurged,
             message := "Invalid input, please enter a note index." }
    | some choice =>
      if choice < 0 ∨ choice > (notes.length : Int) then
        some { notes := notes, werePurged := werePurged,
               message := "Invalid choice, note index out of bounds." }
      else if choice = 0 then
        some { notes := notes, werePurged := werePurged, message := "No notes were deleted." }
      else
        match sliceTo notes (choice - 1), sliceFrom notes choice with
        | some front, some back =>
          some { notes := front ++ back, werePurged := werePurged,
                 message := "Note deleted successfully." }
        | _, _ => none

/-- The state of the program between two iterations of the loop of `main`: the
collection in memory, the flag `werePurged`, and the content of the backing
file (`none` while the file does not exist). -/
structure State where
  notes : List Note
  werePurged : Bool
  file : Option GoString
deriving DecidableEq

/-- Everything one iteration of the loop of `main` may read: the result of
`fmt.Scanf("%d\n", &choice)` (`none` for a scan error), the three lines read by
`addNote`, the formatted current time, and the result of the `Scanf` of
`deleteNote`. -/
structure Input where
  choice : Option Int
  name : GoString
  content : GoString
  encryptChoice : GoString
  now : GoString
  index : Option Int

/-- The result of one iteration of the loop of `main`. -/
inductive Step where
  | running (st : State)
  | exited
  | panicked
deriving DecidableEq

/-- The start of `main` for a collection name: load the file, then set
`werePurged` to whether any note was loaded.  The result `none` is the exit of
the process with status 1 in `loadNotes`. -/
def start (file : Option GoString) : Option State :=
  match loadNotes file with
  | some notes => some { notes := notes, werePurged := decide (notes.length ≠ 0), file := file }
  | none => none

/-- One iteration of the loop of `main`: a scan error and a choice outside 1..4
only print a message, choice 1 only prints `showNotes`, choice 2 runs `addNote`
and then `saveNotes`, choice 3 runs `deleteNote` and then `saveNotes`, choice 4
leaves the loop.  What is printed is not part of the state. -/
def mainStep (table : Char → Char) (st : State) (inp : Input) : Step :=
  match inp.choice with
  | none => .running st
  | some 1 => .running st
  | some 2 =>
    let s := addNote table st.notes st.werePurged inp.name inp.content inp.encryptChoice inp.now
    .running { notes := s.notes, werePurged := s.werePurged, file := some (saveNotes s.notes) }
  | some 3 =>
    match deleteNote st.notes st.werePurged inp.index with
    | some s =>
      .running { notes := s.notes, werePurged := s.werePurged, file := some (saveNotes s.notes) }
    | none => .panicked
  | some 4 => .exited
  | some _ => .running st

/-! ## Vocabulary of the properties -/

/-- Printable ASCII: every character is one of U+0020 .. U+007E. -/
def isPrintableASCII (s : GoString) : Prop := ∀ c ∈ s, 32 ≤ c.toNat ∧ c.toNat ≤ 126

/-- No line-break character (line feed or carriage return) in the string. -/
def noLineBreak (s : GoString) : Prop := '\n' ∉ s ∧ '\r' ∉ s

/-- Valid field values of a note for the store: no `:` in the name or in the
timestamp, and no line-break character in any field. -/
def validFields (note : Note) : Prop :=
  ':' ∉ note.Name ∧ ':' ∉ note.Timestamp ∧
    noLineBreak note.Name ∧ noLineBreak note.Timestamp ∧ noLineBreak note.Content

/-- The record of a note without its line terminator. -/
def recordBody (note : Note) : GoString :=
  note.Name ++ ':' :: (sprintBool note.IsEncrypted ++ ':' :: (note.Timestamp ++ ':' :: note.Content))

/-- A note whose content has 65536 bytes. -/
def longNote : Note :=
  { Name := "a".toList, IsEncrypted := false, Timestamp := "t".toList,
    Content := List.replicate 65536 'x' }

/-- The states the loop of `main` goes through from the state `st` on the given
inputs, `st` first and the state reached last: the run ends when the inputs are
used up, at the exit (choice 4), or at a panic. -/
def trace (table : Char → Char) (st : State) : List Input → List State
  | [] => [st]
  | inp :: rest =>
    match mainStep table st inp with
    | .running next => st :: trace table next rest
    | .exited => [st]
    | .panicked => [st]

/-- A short session: add the note "a" with the content "hello", not encrypted,
then delete the note of index 1. -/
def sampleInputs : List Input :=
  [{ choice := some 2, name := "a\n".toList, content := "hello\n".toList,
     encryptChoice := "n\n".toList, now := "2024-01-01 10:20:30".toList, index := none },
   { choice := some 3, name := [], content := [], encryptChoice := [], now := [],
     index := some 1 }]

/-! ## Facts about the cipher -/

theorem keyLen_eq : keyLen = 9 := by decide

theorem key_length_eq : key.length = 9 := by decide

/-- The shift of `encrypt`/`decrypt` is the alphabet position of the cycled
key character, a number from 0 to 25. -/
theorem shift_eq (i : Nat) :
    ∃ k : Nat, k ≤ 25 ∧ shift i = (k : Int) ∧ alphabetPosition (keyChar i) = k := by
  have h : i % 9 < 9 := Nat.mod_lt _ (by decide)
  unfold shift keyChar
  rw [keyLen_eq, key_length_eq]
  generalize i % 9 = j at h
  interval_cases j
  · exact ⟨10, by decide, by decide, by decide⟩
  · exact ⟨14, by decide, by decide, by decide⟩
  · exact ⟨14, by decide, by decide, by decide⟩
  · exact ⟨3, by decide, by decide, by decide⟩
  · exact ⟨9, by decide, by decide, by decide⟩
  · exact ⟨14, by decide, by decide, by decide⟩
  · exact ⟨7, by decide, by decide, by decide⟩
  · exact ⟨21, by decide, by decide, by decide⟩
  · exact ⟨8, by decide, by decide, by decide⟩

theorem toNat_ofNat_ascii (n : Nat) (h : n < 128) : (Char.ofNat n).toNat = n := by
  interval_cases n <;> rfl

theorem utf8Size_ofNat_ascii (n : Nat) (h : n < 128) : (Char.ofNat n).utf8Size = 1 := by
  interval_cases n <;> rfl

theorem utf8Size_ascii (c : Char) (h : c.toNat < 128) : c.utf8Size = 1 := by
  rw [← Char.ofNat_toNat c]
  exact utf8Size_ofNat_ascii _ h

theorem runeString_ascii (n : Nat) (h : n < 128) : runeString (n : Int) = [Char.ofNat n] := by
  unfold runeString
  rw [if_pos]
  · simp
  · omega

theorem charA : 'A'.toNat = 65 := by decide
theorem charZ : 'Z'.toNat = 90 := by decide
theorem chara : 'a'.toNat = 97 := by decide
theorem charz : 'z'.toNat = 122 := by decide

/-- The loop body of `encrypt` appends exactly one character: the reference
rotation of the input character. -/
theorem encryptRune_eq (i : Nat) (c : Char) : encryptRune i c = [vigenereChar i c] := by
  obtain ⟨k, hk, hs, hp⟩ := shift_eq i
  unfold encryptRune vigenereChar rotateForward isUpper isLower
  rw [hs, hp]
  simp only [charA, charZ, chara, charz]
  by_cases hU : 65 ≤ c.toNat ∧ c.toNat ≤ 90
  · rw [if_pos hU, if_pos hU]
    have e : (((c.toNat : Int) + (k : Int) - ((65 : Nat) : Int)).tmod 26 + ((65 : Nat) : Int))
        = ((65 + (c.toNat - 65 + k) % 26 : Nat) : Int) := by
      rw [Int.tmod_eq_emod (by omega) (by norm_num)]
      push_cast
      omega
    rw [e, runeString_ascii _ (by omega)]
  · rw [if_neg hU, if_neg hU]
    by_cases hL : 97 ≤ c.toNat ∧ c.toNat ≤ 122
    · rw [if_pos hL, if_pos hL]
      have e : (((c.toNat : Int) + (k : Int) - ((97 : Nat) : Int)).tmod 26 + ((97 : Nat) : Int))
          = ((97 + (c.toNat - 97 + k) % 26 : Nat) : Int) := by
        rw [Int.tmod_eq_emod (by omega) (by norm_num)]
        push_cast
        omega
      rw [e, runeString_ascii _ (by omega)]
    · rw [if_neg hL, if_neg hL]

/-- The loop body of `decrypt` appends exactly one character: the reference
backward rotation of the input character. -/
theorem decryptRune_eq (i : Nat) (c : Char) :
    decryptRune i c = [rotateBackward c (alphabetPosition (keyChar i))] := by
  obtain ⟨k, hk, hs, hp⟩ := shift_eq i
  unfold decryptRune rotateBackward isUpper isLower
  rw [hs, hp]
  simp only [charA, charZ, chara, charz]
  by_cases hU : 65 ≤ c.toNat ∧ c.toNat ≤ 90
  · rw [if_pos hU, if_pos hU]
    have e : (((c.toNat : Int) - (k : Int) + 26 - ((65 : Nat) : Int)).tmod 26 + ((65 : Nat) : Int))
        = ((65 + (c.toNat - 65 + 26 - k % 26) % 26 : Nat) : Int) := by
      rw [Int.tmod_eq_emod (by omega) (by norm_num)]
      push_cast
      omega
    rw [e, runeString_ascii _ (by omega)]
  · rw [if_neg hU, if_neg hU]
    by_cases hL : 97 ≤ c.toNat ∧ c.toNat ≤ 122
    · rw [if_pos hL, if_pos hL]
      have e : (((c.toNat : Int) - (k : Int) + 26 - ((97 : Nat) : Int)).tmod 26 + ((97 : Nat) : Int))
          = ((97 + (c.toNat - 97 + 26 - k % 26) % 26 : Nat) : Int) := by
        rw [Int.tmod_eq_emod (by omega) (by norm_num)]
        push_cast
        omega
      rw [e, runeString_ascii _ (by omega)]
    · rw [if_neg hL, if_neg hL]

theorem toNat_rotateForward_upper (c : Char) (k : Nat) (h : isUpper c) :
    (rotateForward c k).toNat = 65 + (c.toNat - 65 + k) % 26 := by
  unfold rotateForward
  rw [if_pos h, charA]
  exact toNat_ofNat_ascii _ (by omega)

theorem toNat_rotateForward_lower (c : Char) (k : Nat) (hU : ¬ isUpper c) (h : isLower c) :
    (rotateForward c k).toNat = 97 + (c.toNat - 97 + k) % 26 := by
  unfold rotateForward
  rw [if_neg hU, if_pos h, chara]
  exact toNat_ofNat_ascii _ (by omega)

theorem rotateForward_other (c : Char) (k : Nat) (h : ¬ isLetter c) : rotateForward c k = c := by
  unfold isLetter at h
  unfold rotateForward
  rw [if_neg (fun hU => h (Or.inl hU)), if_neg (fun hL => h (Or.inr hL))]

theorem rotateBackward_other (c : Char) (k : Nat) (h : ¬ isLetter c) : rotateBackward c k = c := by
  unfold isLetter at h
  unfold rotateBackward
  rw [if_neg (fun hU => h (Or.inl hU)), if_neg (fun hL => h (Or.inr hL))]

/-- Rotation keeps the case of a letter. -/
theorem isUpper_rotateForward (c : Char) (k : Nat) (h : isUpper c) :
    isUpper (rotateForward c k) := by
  have e := toNat_rotateForward_upper c k h
  unfold isUpper
  rw [e, charA, charZ]
  omega

theorem isLower_rotateForward (c : Char) (k : Nat) (h : isLower c) :
    isLower (rotateForward c k) := by
  have hU : ¬ isUpper c := by
    unfold isUpper isLower at *
    rw [charA, charZ]
    rw [chara, charz] at h
    omega
  have e := toNat_rotateForward_lower c k hU h
  unfold isLower
  rw [e, chara, charz]
  omega

/-- Backward rotation undoes forward rotation by the same amount. -/
theorem rotateBackward_rotateForward (c : Char) (k : Nat) (hk : k ≤ 25) :
    rotateBackward (rotateForward c k) k = c := by
  by_cases hU : isUpper c
  · have e := toNat_rotateForward_upper c k hU
    have hU2 := isUpper_rotateForward c k hU
    have hc := hU
    unfold isUpper at hc
    rw [charA, charZ] at hc
    conv_lhs => unfold rotateBackward
    rw [if_pos hU2, e, charA]
    have : 65 + (65 + (c.toNat - 65 + k) % 26 - 65 + 26 - k % 26) % 26 = c.toNat := by omega
    rw [this, Char.ofNat_toNat]
  · by_cases hL : isLower c
    · have e := toNat_rotateForward_lower c k hU hL
      have hL2 := isLower_rotateForward c k hL
      have hU2 : ¬ isUpper (rotateForward c k) := by
        unfold isUpper
        rw [e, charA, charZ]
        omega
      have hc := hL
      unfold isLower at hc
      rw [chara, charz] at hc
      conv_lhs => unfold rotateBackward
      rw [if_neg hU2, if_pos hL2, e, chara]
      have : 97 + (97 + (c.toNat - 97 + k) % 26 - 97 + 26 - k % 26) % 26 = c.toNat := by omega
      rw [this, Char.ofNat_toNat]
    · have hn : ¬ isLetter c := fun h => h.elim hU hL
      rw [rotateForward_other c k hn, rotateBackward_other c k hn]

/-- Rotation keeps the number of bytes of the UTF-8 encoding. -/
theorem utf8Size_rotateForward (c : Char) (k : Nat) :
    (rotateForward c k).utf8Size = c.utf8Size := by
  by_cases hU : isUpper c
  · have e := toNat_rotateForward_upper c k hU
    unfold isUpper at hU
    rw [charA, charZ] at hU
    rw [utf8Size_ascii _ (by omega), utf8Size_ascii _ (by omega)]
  · by_cases hL : isLower c
    · have e := toNat_rotateForward_lower c k hU hL
      unfold isLower at hL
      rw [chara, charz] at hL
      rw [utf8Size_ascii _ (by omega), utf8Size_ascii _ (by omega)]
    · rw [rotateForward_other c k (fun h => h.elim hU hL)]

/-- The loop of `encrypt` maps the reference step over the message, the key
position of a character being its byte offset. -/
theorem decryptFrom_encryptFrom (s : GoString) : ∀ i : Nat,
    decryptFrom i (encryptFrom i s) = s := by
  induction s with
  | nil => intro i; rfl
  | cons c rest ih =>
    intro i
    obtain ⟨k, hk, _, hp⟩ := shift_eq i
    rw [encryptFrom, encryptRune_eq, List.singleton_append, decryptFrom, decryptRune_eq]
    unfold vigenereChar
    rw [hp, rotateBackward_rotateForward c k hk, utf8Size_rotateForward, ih]
    rfl

/-- C1: for every printable-ASCII string `s` (letters and non-letters, any
length, so every alignment with the key cycle), decrypting the encryption of
`s` gives back `s`. -/
theorem decrypt_encrypt_printable (s : GoString) (_h : isPrintableASCII s) :
    decrypt (encrypt s) = s :=
  decryptFrom_encryptFrom s 0

theorem decrypt_encrypt_printable_witness :
    isPrintableASCII "Hello, World! 2024 ~xyz".toList ∧
      decrypt (encrypt "Hello, World! 2024 ~xyz".toList) = "Hello, World! 2024 ~xyz".toList :=
  ⟨by unfold isPrintableASCII; decide,
   decrypt_encrypt_printable _ (by unfold isPrintableASCII; decide)⟩

theorem length_encryptFrom (s : GoString) : ∀ i : Nat, (encryptFrom i s).length = s.length := by
  induction s with
  | nil => intro i; rfl
  | cons c rest ih =>
    intro i
    rw [encryptFrom, encryptRune_eq, List.singleton_append, List.length_cons, List.length_cons,
      ih]

/-- On ASCII text the byte offset of a character is its index, so the loop of
`encrypt` started at offset `j` applies the reference step of position
`j + i` to the character of index `i`. -/
theorem getElem?_encryptFrom_ascii (s : GoString) (hs : ∀ c ∈ s, c.toNat < 128) :
    ∀ (j i : Nat) (c : Char), s[i]? = some c →
      (encryptFrom j s)[i]? = some (vigenereChar (j + i) c) := by
  induction s with
  | nil => intro j i c h; simp at h
  | cons d rest ih =>
    intro j i c h
    rw [encryptFrom, encryptRune_eq, List.singleton_append]
    cases i with
    | zero =>
      simp only [List.getElem?_cons_zero, Option.some.injEq] at h
      simp only [List.getElem?_cons_zero, h, Nat.add_zero]
    | succ n =>
      simp only [List.getElem?_cons_succ] at h ⊢
      rw [utf8Size_ascii d (hs d (List.mem_cons_self _ _))]
      rw [ih (fun x hx => hs x (List.mem_cons_of_mem _ hx)) (j + 1) n c h]
      rw [Nat.add_assoc, Nat.add_comm 1 n]

/-- C4: on ASCII input `encrypt` is the reference Vigenere cipher: the output
has the length of the input, and at every position `i` (counting every
character, letter or not) a letter is rotated forward within its own case by
the alphabet position of the key character at `i mod 9`, while any other
character is copied. -/
theorem encrypt_eq_vigenere (s : GoString) (hs : ∀ c ∈ s, c.toNat < 128) :
    (encrypt s).length = s.length ∧
      ∀ (i : Nat) (c : Char), s[i]? = some c →
        (encrypt s)[i]? =
          some (if isLetter c then
                  rotateForward c (alphabetPosition ("KOODJOHVI".toList.getD (i % 9) 'A'))
                else c) := by
  refine ⟨length_encryptFrom s 0, ?_⟩
  intro i c h
  have e := getElem?_encryptFrom_ascii s hs 0 i c h
  rw [Nat.zero_add] at e
  unfold encrypt
  rw [e]
  by_cases hl : isLetter c
  · rw [if_pos hl]
    rfl
  · rw [if_neg hl]
    unfold vigenereChar
    rw [rotateForward_other c _ hl]

theorem encrypt_eq_vigenere_witness :
    (∀ c ∈ "Ab, z!".toList, c.toNat < 128) ∧
    ((encrypt "Ab, z!".toList).length = "Ab, z!".toList.length ∧
      ∀ (i : Nat) (c : Char), "Ab, z!".toList[i]? = some c →
        (encrypt "Ab, z!".toList)[i]? =
          some (if isLetter c then
                  rotateForward c (alphabetPosition ("KOODJOHVI".toList.getD (i % 9) 'A'))
                else c)) :=
  ⟨by decide, encrypt_eq_vigenere "Ab, z!".toList (by decide)⟩

/-! ## Facts about the library functions -/

theorem byteLen_append (a b : GoString) : byteLen (a ++ b) = byteLen a + byteLen b := by
  induction a with
  | nil => simp [byteLen]
  | cons c cs ih => simp [byteLen, ih, Nat.add_assoc]

theorem byteLen_replicate_x (n : Nat) : byteLen (List.replicate n 'x') = n := by
  induction n with
  | zero => rfl
  | succ k ih =>
    rw [List.replicate_succ, byteLen, ih, utf8Size_ascii 'x' (by decide), Nat.add_comm]

theorem cut_of_not_mem (sep : Char) (s : GoString) (h : sep ∉ s) : cut sep s = none := by
  induction s with
  | nil => rfl
  | cons c cs ih =>
    have hc : c ≠ sep := fun e => h (e ▸ List.mem_cons_self _ _)
    have hcs : sep ∉ cs := fun m => h (List.mem_cons_of_mem _ m)
    rw [cut, if_neg hc, ih hcs]

theorem cut_append (sep : Char) (a b : GoString) (h : sep ∉ a) :
    cut sep (a ++ sep :: b) = some (a, b) := by
  induction a with
  | nil => simp [cut]
  | cons c cs ih =>
    have hc : c ≠ sep := fun e => h (e ▸ List.mem_cons_self _ _)
    have hcs : sep ∉ cs := fun m => h (List.mem_cons_of_mem _ m)
    rw [List.cons_append, cut, if_neg hc, ih hcs]

theorem cut_eq_none (sep : Char) (s : GoString) (h : cut sep s = none) : sep ∉ s := by
  induction s with
  | nil => simp
  | cons c cs ih =>
    rw [cut] at h
    by_cases hc : c = sep
    · rw [if_pos hc] at h
      cases h
    · rw [if_neg hc] at h
      cases hcut : cut sep cs with
      | none =>
        intro hm
        rcases List.mem_cons.mp hm with e | m
        · exact hc e.symm
        · exact ih hcut m
      | some p =>
        rw [hcut] at h
        cases h

theorem cut_eq_some (sep : Char) (s a b : GoString) (h : cut sep s = some (a, b)) :
    sep ∉ a ∧ s = a ++ sep :: b := by
  induction s generalizing a with
  | nil => cases h
  | cons c cs ih =>
    rw [cut] at h
    by_cases hc : c = sep
    · rw [if_pos hc] at h
      simp only [Option.some.injEq, Prod.mk.injEq] at h
      obtain ⟨ha, hb⟩ := h
      subst ha hb hc
      simp
    · rw [if_neg hc] at h
      cases hcut : cut sep cs with
      | none =>
        rw [hcut] at h
        cases h
      | some p =>
        obtain ⟨a', b'⟩ := p
        rw [hcut] at h
        simp only [Option.some.injEq, Prod.mk.injEq] at h
        obtain ⟨ha, hb⟩ := h
        subst ha hb
        obtain ⟨h1, h2⟩ := ih a' hcut
        refine ⟨?_, by rw [h2]; rfl⟩
        intro hm
        rcases List.mem_cons.mp hm with e | m
        · exact hc e.symm
        · exact h1 m

theorem dropCR_of_not_mem (s : GoString) (h : '\r' ∉ s) : dropCR s = s := by
  unfold dropCR
  rw [if_neg]
  intro hl
  exact h (List.mem_of_getLast?_eq_some hl)

/-- The scanner on a file that starts with the rest of a line, its `\n`, and
more text. -/
theorem scanLinesFrom_line (line rest : GoString) (h : '\n' ∉ line) : ∀ cur : GoString,
    scanLinesFrom cur (line ++ '\n' :: rest) =
      if byteLen (cur ++ line) < maxScanTokenSize then
        match scanLinesFrom [] rest with
        | some lines => some (dropCR (cur ++ line) :: lines)
        | none => none
      else none := by
  induction line with
  | nil =>
    intro cur
    rw [List.nil_append, List.append_nil, scanLinesFrom, if_pos rfl]
  | cons c cs ih =>
    intro cur
    have hc : c ≠ '\n' := fun e => h (e ▸ List.mem_cons_self _ _)
    have hcs : '\n' ∉ cs := fun m => h (List.mem_cons_of_mem _ m)
    rw [List.cons_append, scanLinesFrom, if_neg hc, ih hcs (cur ++ [c])]
    simp only [List.append_assoc, List.singleton_append]

/-! ## Facts about the store -/

theorem splitN_add_two (sep : Char) (n : Nat) (s : GoString) :
    splitN sep (n + 2) s =
      match cut sep s with
      | none => [s]
      | some (before, after) => before :: splitN sep (n + 1) after := by
  rw [splitN]

theorem not_mem_sprintBool (c : Char) (h : c = ':' ∨ c = '\n' ∨ c = '\r') (b : Bool) :
    c ∉ sprintBool b := by
  rcases h with h | h | h <;> subst h <;> cases b <;> decide

theorem sprintBool_eq_true (b : Bool) : decide (sprintBool b = "true".toList) = b := by
  cases b <;> decide

theorem recordLine_eq (note : Note) : recordLine note = recordBody note ++ ['\n'] := by
  unfold recordLine recordBody
  show _ ++ [':'] ++ _ ++ [':'] ++ _ ++ [':'] ++ _ ++ ['\n'] = _
  simp only [List.append_assoc, List.singleton_append, List.cons_append, List.nil_append]

theorem byteLen_recordLine (note : Note) :
    byteLen (recordLine note) = byteLen (recordBody note) + 1 := by
  rw [recordLine_eq, byteLen_append]
  rfl

/-- A line of four fields, the first three without `:`, is split into these
four fields. -/
theorem splitN_four (a b c d : GoString) (ha : ':' ∉ a) (hb : ':' ∉ b) (hc : ':' ∉ c) :
    splitN ':' 4 (a ++ ':' :: (b ++ ':' :: (c ++ ':' :: d))) = [a, b, c, d] := by
  rw [show (4 : Nat) = 2 + 2 from rfl, splitN_add_two, cut_append _ _ _ ha]
  show a :: splitN ':' (1 + 2) _ = _
  rw [splitN_add_two, cut_append _ _ _ hb]
  show a :: b :: splitN ':' (0 + 2) _ = _
  rw [splitN_add_two, cut_append _ _ _ hc]
  rfl

theorem parseLine_four (a b c d : GoString) (ha : ':' ∉ a) (hb : ':' ∉ b) (hc : ':' ∉ c) :
    parseLine (a ++ ':' :: (b ++ ':' :: (c ++ ':' :: d))) =
      some { Name := a, IsEncrypted := decide (b = "true".toList), Timestamp := c,
             Content := d } := by
  unfold parseLine
  rw [splitN_four a b c d ha hb hc]

/-- The record `saveNotes` writes for a note whose name and timestamp are free
of `:` is parsed back to that note. -/
theorem parseLine_recordBody (note : Note) (hn : ':' ∉ note.Name) (ht : ':' ∉ note.Timestamp) :
    parseLine (recordBody note) = some note := by
  unfold recordBody
  rw [parseLine_four _ _ _ _ hn (not_mem_sprintBool ':' (Or.inl rfl) _) ht, sprintBool_eq_true]

theorem not_mem_recordBody (c : Char) (h : c = '\n' ∨ c = '\r') (note : Note)
    (hn : c ∉ note.Name) (ht : c ∉ note.Timestamp) (hc : c ∉ note.Content) :
    c ∉ recordBody note := by
  have hcolon : c ≠ ':' := by rcases h with h | h <;> subst h <;> decide
  have hb : c ∉ sprintBool note.IsEncrypted :=
    not_mem_sprintBool c (Or.inr h) _
  unfold recordBody
  simp only [List.mem_append, List.mem_cons, not_or]
  exact ⟨hn, hcolon, hb, hcolon, ht, hcolon, hc⟩

/-- The scanner on the text `saveNotes` writes: one line per note, provided no
record has a line break and every record fits into the buffer. -/
theorem scanLines_saveNotes (C : List Note)
    (h : ∀ n ∈ C, '\n' ∉ recordBody n ∧ '\r' ∉ recordBody n ∧
      byteLen (recordBody n) < maxScanTokenSize) :
    scanLines (saveNotes C) = some (C.map recordBody) := by
  unfold scanLines
  induction C with
  | nil => rfl
  | cons n rest ih =>
    obtain ⟨h1, h2, h3⟩ := h n (List.mem_cons_self _ _)
    have ih' := ih (fun m hm => h m (List.mem_cons_of_mem _ hm))
    rw [saveNotes, recordLine_eq, List.append_assoc, List.singleton_append,
      scanLinesFrom_line _ _ h1, List.nil_append, if_pos h3, ih', dropCR_of_not_mem _ h2]
    rfl

theorem loadLines_recordBody (C : List Note)
    (h : ∀ n ∈ C, ':' ∉ n.Name ∧ ':' ∉ n.Timestamp) :
    loadLines (C.map recordBody) = C := by
  induction C with
  | nil => rfl
  | cons n rest ih =>
    obtain ⟨h1, h2⟩ := h n (List.mem_cons_self _ _)
    rw [List.map_cons, loadLines, parseLine_recordBody n h1 h2,
      ih (fun m hm => h m (List.mem_cons_of_mem _ hm))]

/-- C2, as amended: for every collection whose notes have valid field values
(no `:` in name or timestamp, no line-break character in any field) and whose
record lines, line terminator included, have at most 65536 bytes each, loading
the text `saveNotes` writes returns the collection: the same notes with all
four fields, in the same order.  The content may contain `:`. -/
theorem load_save_roundtrip (C : List Note) (hv : ∀ n ∈ C, validFields n)
    (hl : ∀ n ∈ C, byteLen (recordLine n) ≤ maxScanTokenSize) :
    loadNotes (some (saveNotes C)) = some C := by
  have hs : scanLines (saveNotes C) = some (C.map recordBody) := by
    apply scanLines_saveNotes
    intro n hn
    obtain ⟨_, _, ⟨a1, a2⟩, ⟨b1, b2⟩, ⟨c1, c2⟩⟩ := hv n hn
    have := hl n hn
    rw [byteLen_recordLine] at this
    exact ⟨not_mem_recordBody _ (Or.inl rfl) n a1 b1 c1,
      not_mem_recordBody _ (Or.inr rfl) n a2 b2 c2, by omega⟩
  have hp : loadLines (C.map recordBody) = C :=
    loadLines_recordBody C (fun n hn => ⟨(hv n hn).1, (hv n hn).2.1⟩)
  unfold loadNotes
  simp only [hs, hp]

theorem load_save_roundtrip_witness :
    (∀ n ∈ [Note.mk "shop".toList false "today".toList "milk: 2l, eggs".toList,
            Note.mk "b".toList true "t2".toList "gcfom".toList], validFields n) ∧
    (∀ n ∈ [Note.mk "shop".toList false "today".toList "milk: 2l, eggs".toList,
            Note.mk "b".toList true "t2".toList "gcfom".toList],
        byteLen (recordLine n) ≤ maxScanTokenSize) ∧
    loadNotes (some (saveNotes
        [Note.mk "shop".toList false "today".toList "milk: 2l, eggs".toList,
         Note.mk "b".toList true "t2".toList "gcfom".toList])) =
      some [Note.mk "shop".toList false "today".toList "milk: 2l, eggs".toList,
            Note.mk "b".toList true "t2".toList "gcfom".toList] :=
  ⟨by unfold validFields noLineBreak; decide, by decide,
   load_save_roundtrip _ (by unfold validFields noLineBreak; decide) (by decide)⟩

theorem validFields_longNote : validFields longNote := by
  have hx : ∀ c : Char, c ≠ 'x' → c ∉ List.replicate 65536 'x' :=
    fun c hc hm => hc (List.eq_of_mem_replicate hm)
  refine ⟨by decide, by decide, ⟨by decide, by decide⟩, ⟨by decide, by decide⟩, ?_, ?_⟩
  · exact hx _ (by decide)
  · exact hx _ (by decide)

/-- A single record that does not fit into the buffer of the scanner makes
`loadNotes` end in the exit of the process. -/
theorem loadNotes_too_long (note : Note) (hnl : '\n' ∉ recordBody note)
    (hlen : maxScanTokenSize ≤ byteLen note.Content) :
    loadNotes (some (saveNotes [note])) = none := by
  have hb : ¬ byteLen (recordBody note) < maxScanTokenSize := by
    unfold recordBody
    rw [byteLen_append, byteLen, byteLen_append, byteLen, byteLen_append, byteLen]
    omega
  have hs : scanLines (saveNotes [note]) = none := by
    unfold scanLines
    rw [saveNotes, recordLine_eq, List.append_assoc, List.singleton_append,
      scanLinesFrom_line _ _ hnl, List.nil_append, if_neg hb]
  unfold loadNotes
  simp only [hs]

theorem byteLen_longNote : maxScanTokenSize ≤ byteLen longNote.Content := by
  unfold longNote
  simp only [byteLen_replicate_x]
  unfold maxScanTokenSize
  omega

/-- C2, as stated, fails: a note with valid field values whose content has
65536 bytes is saved as a line the scanner of `loadNotes` cannot hold, so the
load ends in the exit of the process instead of returning the collection. -/
theorem load_save_long_note :
    (∀ n ∈ [longNote], validFields n) ∧
      loadNotes (some (saveNotes [longNote])) = none ∧
      loadNotes (some (saveNotes [longNote])) ≠ some [longNote] := by
  have hv := validFields_longNote
  have hnone : loadNotes (some (saveNotes [longNote])) = none := by
    obtain ⟨_, _, ⟨a1, _⟩, ⟨b1, _⟩, ⟨c1, _⟩⟩ := hv
    exact loadNotes_too_long longNote (not_mem_recordBody _ (Or.inl rfl) longNote a1 b1 c1)
      byteLen_longNote
  refine ⟨?_, hnone, ?_⟩
  · intro n hn
    rw [List.mem_singleton] at hn
    rw [hn]
    exact hv
  · rw [hnone]
    exact fun h => Option.noConfusion h

/-- C3, as a run of the code: the note `addNote` creates for the name "a", the
content "hello" and the answer "n" at 2024-01-01 10:20:30 is written by
`saveNotes` as `a:false:2024-01-01 10:20:30:hello`, and `loadNotes` reads that
line back as a note with the timestamp "2024-01-01 10" and the content
"20:30:hello": the timestamp of `addNote` contains the field delimiter. -/
theorem added_note_reloaded_differs :
    (addNote id [] false "a\n".toList "hello\n".toList "n\n".toList
        "2024-01-01 10:20:30".toList).notes =
      [Note.mk "a".toList false "2024-01-01 10:20:30".toList "hello".toList] ∧
    saveNotes [Note.mk "a".toList false "2024-01-01 10:20:30".toList "hello".toList] =
      "a:false:2024-01-01 10:20:30:hello\n".toList ∧
    loadNotes (some (saveNotes
        [Note.mk "a".toList false "2024-01-01 10:20:30".toList "hello".toList])) =
      some [Note.mk "a".toList false "2024-01-01 10".toList "20:30:hello".toList] := by
  decide

theorem count_colon_split (a b : GoString) (h : ':' ∉ a) :
    (a ++ ':' :: b).count ':' = b.count ':' + 1 := by
  rw [List.count_append, List.count_eq_zero_of_not_mem h, List.count_cons_self, Nat.zero_add]

/-- Every line either consists of three fields without `:` and a rest, each
followed by `:`, or has fewer than three `:` and is split into fewer than four
parts. -/
theorem splitN_cases (line : GoString) :
    (∃ a b c d, ':' ∉ a ∧ ':' ∉ b ∧ ':' ∉ c ∧
        line = a ++ ':' :: (b ++ ':' :: (c ++ ':' :: d))) ∨
      ((splitN ':' 4 line).length < 4 ∧ line.count ':' < 3 ∧ parseLine line = none) := by
  unfold parseLine
  rw [show (4 : Nat) = 2 + 2 from rfl, splitN_add_two]
  cases h1 : cut ':' line with
  | none =>
    right
    have := List.count_eq_zero_of_not_mem (cut_eq_none _ _ h1)
    simp [this]
  | some p1 =>
    obtain ⟨a, r1⟩ := p1
    obtain ⟨ha, e1⟩ := cut_eq_some _ _ _ _ h1
    subst e1
    show _ ∨ ((a :: splitN ':' (1 + 2) r1).length < 4 ∧ _ ∧
      (match a :: splitN ':' (1 + 2) r1 with
        | [p0, p1, p2, p3] => some (Note.mk p0 (decide (p1 = "true".toList)) p2 p3)
        | _ => none) = none)
    rw [splitN_add_two, count_colon_split a r1 ha]
    cases h2 : cut ':' r1 with
    | none =>
      right
      have := List.count_eq_zero_of_not_mem (cut_eq_none _ _ h2)
      simp [this]
    | some p2 =>
      obtain ⟨b, r2⟩ := p2
      obtain ⟨hb, e2⟩ := cut_eq_some _ _ _ _ h2
      subst e2
      show _ ∨ ((a :: b :: splitN ':' (0 + 2) r2).length < 4 ∧ _ ∧
        (match a :: b :: splitN ':' (0 + 2) r2 with
          | [p0, p1, p2, p3] => some (Note.mk p0 (decide (p1 = "true".toList)) p2 p3)
          | _ => none) = none)
      rw [splitN_add_two, count_colon_split b r2 hb]
      cases h3 : cut ':' r2 with
      | none =>
        right
        have := List.count_eq_zero_of_not_mem (cut_eq_none _ _ h3)
        simp [this]
      | some p3 =>
        obtain ⟨c, d⟩ := p3
        obtain ⟨hc, e3⟩ := cut_eq_some _ _ _ _ h3
        subst e3
        left
        exact ⟨a, b, c, d, ha, hb, hc, rfl⟩

theorem count_colon_four (a b c d : GoString) (ha : ':' ∉ a) (hb : ':' ∉ b) (hc : ':' ∉ c) :
    3 ≤ (a ++ ':' :: (b ++ ':' :: (c ++ ':' :: d))).count ':' := by
  rw [count_colon_split _ _ ha, count_colon_split _ _ hb, count_colon_split _ _ hc]
  omega

theorem loadLines_eq_filterMap (lines : List GoString) :
    loadLines lines = lines.filterMap parseLine := by
  induction lines with
  | nil => rfl
  | cons l rest ih =>
    rw [loadLines, List.filterMap_cons, ih]
    cases parseLine l <;> rfl

/-- C5: for every sequence of lines delivered by the scanner, `loadNotes` keeps,
in file order, exactly one note per line that `strings.SplitN(line, ":", 4)`
splits into 4 parts, which are the lines with at least three `:`.  For such a
line the name, the flag token and the timestamp are the first three segments
free of `:`, the content is everything after the third `:` (further `:`
kept), and the note is flagged as encrypted exactly when the flag token is
"true".  A line with fewer than 4 parts gives no note and does not change the
notes loaded from the other lines. -/
theorem loadNotes_parsing_rule (lines : List GoString) :
    loadLines lines = lines.filterMap parseLine ∧
    (∀ text, scanLines text = some lines →
      loadNotes (some text) = some (lines.filterMap parseLine)) ∧
    (∀ line, ((splitN ':' 4 line).length = 4 ↔ 3 ≤ line.count ':') ∧
      ((splitN ':' 4 line).length < 4 ↔ parseLine line = none)) ∧
    (∀ line, 3 ≤ line.count ':' →
      ∃ a b c d, ':' ∉ a ∧ ':' ∉ b ∧ ':' ∉ c ∧
        line = a ++ ':' :: (b ++ ':' :: (c ++ ':' :: d)) ∧
        parseLine line =
          some { Name := a, IsEncrypted := decide (b = "true".toList), Timestamp := c,
                 Content := d }) ∧
    (∀ pre bad post, lines = pre ++ bad :: post → (splitN ':' 4 bad).length < 4 →
      loadLines lines = loadLines (pre ++ post)) := by
  have key : ∀ line, ((splitN ':' 4 line).length = 4 ↔ 3 ≤ line.count ':') ∧
      ((splitN ':' 4 line).length < 4 ↔ parseLine line = none) := by
    intro line
    rcases splitN_cases line with ⟨a, b, c, d, ha, hb, hc, e⟩ | ⟨h1, h2, h3⟩
    · subst e
      have hcount := count_colon_four a b c d ha hb hc
      rw [parseLine_four a b c d ha hb hc, splitN_four a b c d ha hb hc]
      exact ⟨⟨fun _ => hcount, fun _ => rfl⟩,
        ⟨fun h => absurd h (Nat.lt_irrefl 4), fun h => Option.noConfusion h⟩⟩
    · constructor
      · constructor
        · intro h; omega
        · intro h; omega
      · exact ⟨fun _ => h3, fun _ => h1⟩
  refine ⟨loadLines_eq_filterMap lines, ?_, key, ?_, ?_⟩
  · intro text h
    unfold loadNotes
    simp only [h, loadLines_eq_filterMap]
  · intro line h
    rcases splitN_cases line with ⟨a, b, c, d, ha, hb, hc, e⟩ | ⟨_, h2, _⟩
    · exact ⟨a, b, c, d, ha, hb, hc, e, by rw [e, parseLine_four a b c d ha hb hc]⟩
    · omega
  · intro pre bad post e hbad
    have hn : parseLine bad = none := ((key bad).2).mp hbad
    rw [e, loadLines_eq_filterMap, loadLines_eq_filterMap, List.filterMap_append,
      List.filterMap_append, List.filterMap_cons, hn]

/-! ## Facts about the controller -/

/-- C6: for every collection of length `n ≥ 1` and every index `k` with
`1 ≤ k ≤ n`, `deleteNote` does not panic and leaves the first `k - 1` notes
followed by the notes after the 1-based position `k`, in their order: the
length is `n - 1`, the notes before position `k` keep their place and the
notes after it move up by one.  The index `k = n` is included. -/
theorem deleteNote_removes (notes : List Note) (werePurged : Bool) (k : Nat)
    (h1 : 1 ≤ k) (h2 : k ≤ notes.length) :
    deleteNote notes werePurged (some (k : Int)) =
        some { notes := notes.take (k - 1) ++ notes.drop k, werePurged := werePurged,
               message := "Note deleted successfully." } ∧
      (notes.take (k - 1) ++ notes.drop k).length = notes.length - 1 ∧
      (∀ i, i < k - 1 → (notes.take (k - 1) ++ notes.drop k)[i]? = notes[i]?) ∧
      (∀ i, k - 1 ≤ i → (notes.take (k - 1) ++ notes.drop k)[i]? = notes[i + 1]?) := by
  refine ⟨?_, ?_, ?_, ?_⟩
  · unfold deleteNote sliceTo sliceFrom
    have hlen : ¬ notes.length = 0 := by omega
    have hb : ¬ ((k : Int) < 0 ∨ (k : Int) > (notes.length : Int)) := by omega
    have h0 : ¬ (k : Int) = 0 := by omega
    have hto : (0 : Int) ≤ (k : Int) - 1 ∧ (k : Int) - 1 ≤ (notes.length : Int) := by omega
    have hfrom : (0 : Int) ≤ (k : Int) ∧ (k : Int) ≤ (notes.length : Int) := by omega
    have e1 : ((k : Int) - 1).toNat = k - 1 := by omega
    have e2 : (k : Int).toNat = k := by omega
    simp only [hlen, hb, h0, hto, hfrom, e1, e2, if_false, if_true, and_self]
  · rw [List.length_append, List.length_take, List.length_drop]
    omega
  · intro i hi
    rw [List.getElem?_append_left (by rw [List.length_take]; omega), List.getElem?_take_of_lt hi]
  · intro i hi
    have hl : (notes.take (k - 1)).length = k - 1 := by rw [List.length_take]; omega
    rw [List.getElem?_append_right (by omega), hl, List.getElem?_drop]
    congr 1
    omega

theorem deleteNote_removes_witness :
    1 ≤ 2 ∧ 2 ≤ [Note.mk "a".toList false "t1".toList "x".toList,
                 Note.mk "b".toList true "t2".toList "y".toList].length ∧
      deleteNote [Note.mk "a".toList false "t1".toList "x".toList,
                  Note.mk "b".toList true "t2".toList "y".toList] true (some 2) =
        some { notes := [Note.mk "a".toList false "t1".toList "x".toList], werePurged := true,
               message := "Note deleted successfully." } :=
  ⟨by decide, by decide,
   (deleteNote_removes [Note.mk "a".toList false "t1".toList "x".toList,
      Note.mk "b".toList true "t2".toList "y".toList] true 2 (by decide) (by decide)).1⟩

/-- C8: for every non-empty collection of length `n`, `deleteNote` with the
index 0, with a negative index, or with an index greater than `n` leaves the
collection exactly as it was. -/
theorem deleteNote_unchanged (notes : List Note) (werePurged : Bool) (index : Int)
    (hne : notes ≠ []) (h : index = 0 ∨ index < 0 ∨ index > (notes.length : Int)) :
    ∃ message, deleteNote notes werePurged (some index) =
      some { notes := notes, werePurged := werePurged, message := message } := by
  have hlen : ¬ notes.length = 0 := fun e => hne (List.length_eq_zero.mp e)
  unfold deleteNote
  rw [if_neg hlen]
  by_cases hb : index < 0 ∨ index > (notes.length : Int)
  · exact ⟨"Invalid choice, note index out of bounds.", by simp only [hb, if_true]⟩
  · have h0 : index = 0 := by
      rcases h with h | h | h
      · exact h
      · exact absurd (Or.inl h) hb
      · exact absurd (Or.inr h) hb
    exact ⟨"No notes were deleted.", by simp only [if_neg hb, if_pos h0]⟩

theorem deleteNote_unchanged_witness :
    [Note.mk "a".toList false "t1".toList "x".toList] ≠ [] ∧
      ((5 : Int) = 0 ∨ (5 : Int) < 0 ∨
        (5 : Int) > ([Note.mk "a".toList false "t1".toList "x".toList].length : Int)) ∧
      ∃ message, deleteNote [Note.mk "a".toList false "t1".toList "x".toList] false (some 5) =
        some { notes := [Note.mk "a".toList false "t1".toList "x".toList], werePurged := false,
               message := message } :=
  ⟨by decide, by decide,
   deleteNote_unchanged [Note.mk "a".toList false "t1".toList "x".toList] false 5
     (by decide) (by decide)⟩

/-- C7, as stated, fails: `main` calls `saveNotes` after every `addNote`, also
after a rejected one.  On a first start without a file, an add with an empty
name leaves the collection empty and creates the file; on a file holding only
a malformed line, it rewrites the file without that line. -/
theorem rejected_add_saves :
    trimSpace " \n".toList = [] ∧
    start none = some { notes := [], werePurged := false, file := none } ∧
    mainStep id { notes := [], werePurged := false, file := none }
        { choice := some 2, name := " \n".toList, content := [], encryptChoice := [],
          now := [], index := none } =
      Step.running { notes := [], werePurged := false, file := some [] } ∧
    start (some "junk\n".toList) =
      some { notes := [], werePurged := false, file := some "junk\n".toList } ∧
    mainStep id { notes := [], werePurged := false, file := some "junk\n".toList }
        { choice := some 2, name := " \n".toList, content := [], encryptChoice := [],
          now := [], index := none } =
      Step.running { notes := [], werePurged := false, file := some [] } := by
  decide

/-- C7, as amended: for every collection and every add attempt (menu choice 2)
whose name is empty after trimming, or whose content is empty after trimming,
the collection and the flag `werePurged` are unchanged; `main` still calls
`saveNotes`, which writes the unchanged collection to the file. -/
theorem rejected_add_unchanged (table : Char → Char) (st : State) (inp : Input)
    (hc : inp.choice = some 2)
    (h : trimSpace inp.name = [] ∨ trimSpace inp.content = []) :
    (addNote table st.notes st.werePurged inp.name inp.content inp.encryptChoice inp.now).notes =
        st.notes ∧
      mainStep table st inp =
        Step.running { notes := st.notes, werePurged := st.werePurged,
                       file := some (saveNotes st.notes) } := by
  have ha : ∃ message,
      addNote table st.notes st.werePurged inp.name inp.content inp.encryptChoice inp.now =
        { notes := st.notes, werePurged := st.werePurged, message := message } := by
    unfold addNote
    by_cases hn : trimSpace inp.name = []
    · exact ⟨"Note name cannot be empty.", by simp only [hn, if_true]⟩
    · have hcont : trimSpace inp.content = [] := h.resolve_left hn
      exact ⟨"Note content cannot be empty.", by simp only [hn, hcont, if_true, if_false]⟩
  obtain ⟨message, e⟩ := ha
  refine ⟨by rw [e], ?_⟩
  unfold mainStep
  rw [hc]
  simp only [e]

theorem rejected_add_unchanged_witness :
    (some 2 : Option Int) = some 2 ∧
    (trimSpace "  \n".toList = [] ∨ trimSpace "text\n".toList = []) ∧
    mainStep id
        { notes := [Note.mk "a".toList false "t1".toList "x".toList], werePurged := true,
          file := some "a:false:t1:x\n".toList }
        { choice := some 2, name := "  \n".toList, content := "text\n".toList,
          encryptChoice := "n\n".toList, now := "t2".toList, index := none } =
      Step.running
        { notes := [Note.mk "a".toList false "t1".toList "x".toList], werePurged := true,
          file := some (saveNotes [Note.mk "a".toList false "t1".toList "x".toList]) } :=
  ⟨rfl, by decide,
   (rejected_add_unchanged id
      { notes := [Note.mk "a".toList false "t1".toList "x".toList], werePurged := true,
        file := some "a:false:t1:x\n".toList }
      { choice := some 2, name := "  \n".toList, content := "text\n".toList,
        encryptChoice := "n\n".toList, now := "t2".toList, index := none }
      rfl (by decide)).2⟩

/-- What `addNote` does once the name and the content are accepted. -/
theorem addNote_accepted (table : Char → Char) (notes : List Note) (werePurged : Bool)
    (name content encryptChoice now : GoString)
    (hn : trimSpace name ≠ []) (hc : trimSpace content ≠ []) :
    ∃ message, addNote table notes werePurged name content encryptChoice now =
      { notes := notes ++
          [{ Name := trimSpace name,
             IsEncrypted := decide (trimSpace (toLower table encryptChoice) = "y".toList),
             Timestamp := now,
             Content :=
               if trimSpace (toLower table encryptChoice) = "y".toList then
                 encrypt (trimSpace content)
               else trimSpace content }],
        werePurged := true, message := message } := by
  unfold addNote
  by_cases hy : trimSpace (toLower table encryptChoice) = "y".toList
  · exact ⟨"Encrypted note added successfully.", by
      simp only [hn, hc, hy, if_true, if_false, decide_True]⟩
  · by_cases hno : trimSpace (toLower table encryptChoice) = "n".toList
    · refine ⟨"Non-encrypted note added successfully.", ?_⟩
      simp only [hn, hc, if_false]
      rw [if_neg hy, if_neg (not_not.mpr hno), if_neg hy, decide_eq_false hy]
    · refine ⟨"Warning: invalid input was defaulted to 'n', non-encrypted note was added.", ?_⟩
      simp only [hn, hc, if_false]
      rw [if_neg hy, if_pos hno, if_neg hy, decide_eq_false hy]

/-- C9: for every collection and every add whose name and content are not empty
after trimming, the resulting collection is the old one followed by exactly
one new note (length + 1, earlier notes and their order unchanged); the name
of the new note is the trimmed name, its timestamp the current time, and its
content is the trimmed content when the note is not flagged as encrypted and
`encrypt` of the trimmed content, applied once, when it is. -/
theorem addNote_appends (table : Char → Char) (notes : List Note) (werePurged : Bool)
    (name content encryptChoice now : GoString)
    (hn : trimSpace name ≠ []) (hc : trimSpace content ≠ []) :
    ∃ note : Note,
      (addNote table notes werePurged name content encryptChoice now).notes = notes ++ [note] ∧
      (addNote table notes werePurged name content encryptChoice now).notes.length =
        notes.length + 1 ∧
      (addNote table notes werePurged name content encryptChoice now).werePurged = true ∧
      note.Name = trimSpace name ∧
      note.Timestamp = now ∧
      (note.IsEncrypted = false → note.Content = trimSpace content) ∧
      (note.IsEncrypted = true → note.Content = encrypt (trimSpace content)) := by
  obtain ⟨message, e⟩ := addNote_accepted table notes werePurged name content encryptChoice now hn hc
  rw [e]
  refine ⟨_, rfl, by simp, rfl, rfl, rfl, ?_, ?_⟩
  · intro h
    have : ¬ trimSpace (toLower table encryptChoice) = "y".toList := by simpa using h
    simp only [this, if_false]
  · intro h
    have : trimSpace (toLower table encryptChoice) = "y".toList := by simpa using h
    simp only [this, if_true]

theorem addNote_appends_witness :
    trimSpace " b \n".toList ≠ [] ∧ trimSpace "world\n".toList ≠ [] ∧
    ∃ note : Note,
      (addNote id [Note.mk "a".toList false "t1".toList "hello".toList] true " b \n".toList
          "world\n".toList "y\n".toList "t2".toList).notes =
        [Note.mk "a".toList false "t1".toList "hello".toList] ++ [note] ∧
      (addNote id [Note.mk "a".toList false "t1".toList "hello".toList] true " b \n".toList
          "world\n".toList "y\n".toList "t2".toList).notes.length =
        [Note.mk "a".toList false "t1".toList "hello".toList].length + 1 ∧
      (addNote id [Note.mk "a".toList false "t1".toList "hello".toList] true " b \n".toList
          "world\n".toList "y\n".toList "t2".toList).werePurged = true ∧
      note.Name = trimSpace " b \n".toList ∧
      note.Timestamp = "t2".toList ∧
      (note.IsEncrypted = false → note.Content = trimSpace "world\n".toList) ∧
      (note.IsEncrypted = true → note.Content = encrypt (trimSpace "world\n".toList)) :=
  ⟨by decide, by decide,
   addNote_appends id [Note.mk "a".toList false "t1".toList "hello".toList] true " b \n".toList
     "world\n".toList "y\n".toList "t2".toList (by decide) (by decide)⟩

/-- The case table is not consulted for an ASCII character. -/
theorem toLowerRune_ascii (table : Char → Char) (c : Char) (h : c.toNat < 128) :
    toLowerRune table c = toLowerRune id c := by
  unfold toLowerRune
  rw [if_pos h, if_pos h]

theorem isSpace_toLowerRune_ascii (table : Char → Char) (c : Char) (h : c.toNat < 128) :
    isSpace (toLowerRune table c) = isSpace c := by
  rw [toLowerRune_ascii table c h, ← Char.ofNat_toNat c]
  generalize c.toNat = n at h
  interval_cases n <;> rfl

theorem toLowerRune_eq_y (table : Char → Char) (c : Char) (h : c.toNat < 128) :
    toLowerRune table c = 'y' ↔ c = 'y' ∨ c = 'Y' := by
  rw [toLowerRune_ascii table c h, ← Char.ofNat_toNat c]
  generalize c.toNat = n at h
  interval_cases n <;> decide

theorem dropWhile_isSpace_map (f : Char → Char) (s : GoString)
    (h : ∀ c ∈ s, isSpace (f c) = isSpace c) :
    (s.map f).dropWhile isSpace = (s.dropWhile isSpace).map f := by
  induction s with
  | nil => rfl
  | cons c cs ih =>
    have hc := h c (List.mem_cons_self _ _)
    rw [List.map_cons, List.dropWhile_cons, List.dropWhile_cons, hc]
    cases isSpace c
    · rfl
    · simp only [if_true]
      exact ih (fun x hx => h x (List.mem_cons_of_mem _ hx))

theorem mem_of_mem_dropWhile (p : Char → Bool) (s : GoString) (c : Char)
    (h : c ∈ s.dropWhile p) : c ∈ s :=
  (List.dropWhile_sublist p).subset h

theorem mem_of_mem_trimSpace (s : GoString) (c : Char) (h : c ∈ trimSpace s) : c ∈ s := by
  unfold trimSpace at h
  rw [List.mem_reverse] at h
  have h2 := mem_of_mem_dropWhile _ _ _ h
  rw [List.mem_reverse] at h2
  exact mem_of_mem_dropWhile _ _ _ h2

/-- Trimming commutes with a character map that keeps white space white space
and everything else not white space. -/
theorem trimSpace_map (f : Char → Char) (s : GoString)
    (h : ∀ c ∈ s, isSpace (f c) = isSpace c) :
    trimSpace (s.map f) = (trimSpace s).map f := by
  unfold trimSpace
  rw [dropWhile_isSpace_map f s h, ← List.map_reverse,
    dropWhile_isSpace_map f _ (fun c hc =>
      h c (mem_of_mem_dropWhile _ _ _ (List.mem_reverse.mp hc))),
    List.map_reverse]

/-- For an answer made of ASCII characters, the normalised answer is "y" exactly
when the trimmed answer is "y" or "Y". -/
theorem normalised_answer_eq_y (table : Char → Char) (answer : GoString)
    (h : ∀ c ∈ answer, c.toNat < 128) :
    trimSpace (toLower table answer) = "y".toList ↔
      (trimSpace answer = "y".toList ∨ trimSpace answer = "Y".toList) := by
  unfold toLower
  rw [trimSpace_map _ _ (fun c hc => isSpace_toLowerRune_ascii table c (h c hc))]
  have hm : ∀ c ∈ trimSpace answer, c.toNat < 128 :=
    fun c hc => h c (mem_of_mem_trimSpace _ _ hc)
  generalize trimSpace answer = t at hm
  show List.map _ t = ['y'] ↔ (t = ['y'] ∨ t = ['Y'])
  match t, hm with
  | [], _ => simp
  | [c], hm =>
    have := toLowerRune_eq_y table c (hm c (List.mem_singleton.mpr rfl))
    simp [this]
  | _ :: _ :: _, _ => simp

/-- C10, as stated, fails: the answer "Y" is not the string "y", yet the note is
added encrypted, whatever the case table above U+007F is. -/
theorem addNote_answer_uppercase :
    trimSpace "Y\n".toList = "Y".toList ∧ "Y".toList ≠ "y".toList ∧
    ∀ table : Char → Char,
      (addNote table [] false "a\n".toList "hello\n".toList "Y\n".toList "t".toList).notes =
        [Note.mk "a".toList true "t".toList (encrypt "hello".toList)] :=
  ⟨by decide, by decide, fun _ => rfl⟩

/-- C10, as amended: `addNote` lower-cases the answer before it trims and
compares it.  The added note is encrypted (flag true, content the ciphertext of
the trimmed content) if and only if the lower-cased, trimmed answer is "y",
which for an answer of ASCII characters means that the trimmed answer is "y" or
"Y"; every other answer is treated as "n": flag false, trimmed content stored
as it is. -/
theorem addNote_encrypt_choice (table : Char → Char) (notes : List Note) (werePurged : Bool)
    (name content answer now : GoString)
    (hn : trimSpace name ≠ []) (hc : trimSpace content ≠ []) :
    ∃ note : Note,
      (addNote table notes werePurged name content answer now).notes = notes ++ [note] ∧
      (note.IsEncrypted = true ↔ trimSpace (toLower table answer) = "y".toList) ∧
      (trimSpace (toLower table answer) = "y".toList →
        note.IsEncrypted = true ∧ note.Content = encrypt (trimSpace content)) ∧
      (trimSpace (toLower table answer) ≠ "y".toList →
        note.IsEncrypted = false ∧ note.Content = trimSpace content) ∧
      ((∀ c ∈ answer, c.toNat < 128) →
        (note.IsEncrypted = true ↔
          (trimSpace answer = "y".toList ∨ trimSpace answer = "Y".toList))) := by
  obtain ⟨message, e⟩ := addNote_accepted table notes werePurged name content answer now hn hc
  rw [e]
  refine ⟨_, rfl, ?_, ?_, ?_, ?_⟩
  · simp only [decide_eq_true_eq]
  · intro h
    simp only [h, if_true, decide_True, and_self]
  · intro h
    simp only [ne_eq] at h
    simp only [h, if_false, decide_False, and_self]
  · intro h
    simp only [decide_eq_true_eq]
    exact normalised_answer_eq_y table answer h

theorem addNote_encrypt_choice_witness :
    trimSpace "a\n".toList ≠ [] ∧ trimSpace "hello\n".toList ≠ [] ∧
    ∃ note : Note,
      (addNote id [] false "a\n".toList "hello\n".toList " maybe\n".toList "t".toList).notes =
        [] ++ [note] ∧
      (note.IsEncrypted = true ↔ trimSpace (toLower id " maybe\n".toList) = "y".toList) ∧
      (trimSpace (toLower id " maybe\n".toList) = "y".toList →
        note.IsEncrypted = true ∧ note.Content = encrypt (trimSpace "hello\n".toList)) ∧
      (trimSpace (toLower id " maybe\n".toList) ≠ "y".toList →
        note.IsEncrypted = false ∧ note.Content = trimSpace "hello\n".toList) ∧
      ((∀ c ∈ " maybe\n".toList, c.toNat < 128) →
        (note.IsEncrypted = true ↔
          (trimSpace " maybe\n".toList = "y".toList ∨
            trimSpace " maybe\n".toList = "Y".toList))) :=
  ⟨by decide, by decide,
   addNote_encrypt_choice id [] false "a\n".toList "hello\n".toList " maybe\n".toList "t".toList
     (by decide) (by decide)⟩

/-! ## More facts about the cipher -/

theorem toNat_rotateBackward_upper (c : Char) (k : Nat) (h : isUpper c) :
    (rotateBackward c k).toNat = 65 + (c.toNat - 65 + 26 - k % 26) % 26 := by
  unfold rotateBackward
  rw [if_pos h, charA]
  exact toNat_ofNat_ascii _ (by omega)

theorem not_isUpper_of_isLower (c : Char) (h : isLower c) : ¬ isUpper c := by
  unfold isUpper isLower at *
  rw [charA, charZ]
  rw [chara, charz] at h
  omega

theorem toNat_rotateBackward_lower (c : Char) (k : Nat) (h : isLower c) :
    (rotateBackward c k).toNat = 97 + (c.toNat - 97 + 26 - k % 26) % 26 := by
  unfold rotateBackward
  rw [if_neg (not_isUpper_of_isLower c h), if_pos h, chara]
  exact toNat_ofNat_ascii _ (by omega)

/-- Backward rotation keeps the case of a letter. -/
theorem isUpper_rotateBackward (c : Char) (k : Nat) (h : isUpper c) :
    isUpper (rotateBackward c k) := by
  have e := toNat_rotateBackward_upper c k h
  unfold isUpper
  rw [e, charA, charZ]
  omega

theorem isLower_rotateBackward (c : Char) (k : Nat) (h : isLower c) :
    isLower (rotateBackward c k) := by
  have e := toNat_rotateBackward_lower c k h
  unfold isLower
  rw [e, chara, charz]
  omega

/-- Backward rotation keeps the number of bytes of the UTF-8 encoding. -/
theorem utf8Size_rotateBackward (c : Char) (k : Nat) :
    (rotateBackward c k).utf8Size = c.utf8Size := by
  by_cases hU : isUpper c
  · have e := toNat_rotateBackward_upper c k hU
    unfold isUpper at hU
    rw [charA, charZ] at hU
    rw [utf8Size_ascii _ (by omega), utf8Size_ascii _ (by omega)]
  · by_cases hL : isLower c
    · have e := toNat_rotateBackward_lower c k hL
      unfold isLower at hL
      rw [chara, charz] at hL
      rw [utf8Size_ascii _ (by omega), utf8Size_ascii _ (by omega)]
    · rw [rotateBackward_other c k (fun h => h.elim hU hL)]

theorem length_decryptFrom (s : GoString) : ∀ i : Nat, (decryptFrom i s).length = s.length := by
  induction s with
  | nil => intro i; rfl
  | cons c rest ih =>
    intro i
    rw [decryptFrom, decryptRune_eq, List.singleton_append, List.length_cons, List.length_cons,
      ih]

theorem byteLen_encryptFrom (s : GoString) : ∀ i : Nat, byteLen (encryptFrom i s) = byteLen s := by
  induction s with
  | nil => intro i; rfl
  | cons c rest ih =>
    intro i
    rw [encryptFrom, encryptRune_eq, List.singleton_append, byteLen, byteLen, ih]
    unfold vigenereChar
    rw [utf8Size_rotateForward]

theorem byteLen_decryptFrom (s : GoString) : ∀ i : Nat, byteLen (decryptFrom i s) = byteLen s := by
  induction s with
  | nil => intro i; rfl
  | cons c rest ih =>
    intro i
    rw [decryptFrom, decryptRune_eq, List.singleton_append, byteLen, byteLen, ih,
      utf8Size_rotateBackward]

/-- The loop of `encrypt` started at byte offset `j`: the character of index `i`
is rotated with the key character of its byte offset, `j` plus the number of
bytes of the `i` characters before it. -/
theorem getElem?_encryptFrom (s : GoString) :
    ∀ (j i : Nat) (c : Char), s[i]? = some c →
      (encryptFrom j s)[i]? =
        some (rotateForward c (alphabetPosition (keyChar (j + byteLen (s.take i))))) := by
  induction s with
  | nil => intro j i c h; simp at h
  | cons d rest ih =>
    intro j i c h
    rw [encryptFrom, encryptRune_eq, List.singleton_append]
    cases i with
    | zero =>
      simp only [List.getElem?_cons_zero, Option.some.injEq] at h
      simp only [List.getElem?_cons_zero, h, List.take_zero, byteLen, Nat.add_zero]
      rfl
    | succ n =>
      simp only [List.getElem?_cons_succ] at h ⊢
      rw [ih (j + d.utf8Size) n c h, List.take_succ_cons, byteLen, Nat.add_assoc]

/-- The loop of `decrypt` started at byte offset `j`, character by character. -/
theorem getElem?_decryptFrom (s : GoString) :
    ∀ (j i : Nat) (c : Char), s[i]? = some c →
      (decryptFrom j s)[i]? =
        some (rotateBackward c (alphabetPosition (keyChar (j + byteLen (s.take i))))) := by
  induction s with
  | nil => intro j i c h; simp at h
  | cons d rest ih =>
    intro j i c h
    rw [decryptFrom, decryptRune_eq, List.singleton_append]
    cases i with
    | zero =>
      simp only [List.getElem?_cons_zero, Option.some.injEq] at h
      simp only [List.getElem?_cons_zero, h, List.take_zero, byteLen, Nat.add_zero]
    | succ n =>
      simp only [List.getElem?_cons_succ] at h ⊢
      rw [ih (j + d.utf8Size) n c h, List.take_succ_cons, byteLen, Nat.add_assoc]

/-- On ASCII text the byte offset of a character is its index. -/
theorem byteLen_take_ascii (s : GoString) (hs : ∀ c ∈ s, c.toNat < 128) :
    ∀ i : Nat, i ≤ s.length → byteLen (s.take i) = i := by
  induction s with
  | nil =>
    intro i hi
    simp only [List.length_nil, Nat.le_zero_eq] at hi
    subst hi
    rfl
  | cons d rest ih =>
    intro i hi
    cases i with
    | zero => rfl
    | succ n =>
      rw [List.take_succ_cons, byteLen, utf8Size_ascii d (hs d (List.mem_cons_self _ _)),
        ih (fun x hx => hs x (List.mem_cons_of_mem _ hx)) n
          (by simp only [List.length_cons] at hi; omega)]
      omega

theorem not_isLetter_of_nonASCII (c : Char) (h : 128 ≤ c.toNat) : ¬ isLetter c := by
  unfold isLetter isUpper isLower
  rw [charA, charZ, chara, charz]
  omega

/-- C12: for every input string and every position `i`, so for every key
position, an uppercase letter A-Z at position `i` gives an uppercase letter A-Z
at position `i` of the output of `encrypt`, and a lowercase letter a-z gives a
lowercase letter a-z. -/
theorem encrypt_preserves_case (s : GoString) (i : Nat) (c : Char) (h : s[i]? = some c) :
    ∃ d : Char, (encrypt s)[i]? = some d ∧ (isUpper c → isUpper d) ∧ (isLower c → isLower d) := by
  refine ⟨_, getElem?_encryptFrom s 0 i c h, ?_, ?_⟩
  · exact isUpper_rotateForward c _
  · exact isLower_rotateForward c _

theorem encrypt_preserves_case_witness :
    "xY z".toList[1]? = some 'Y' ∧
      ∃ d : Char, (encrypt "xY z".toList)[1]? = some d ∧
        (isUpper 'Y' → isUpper d) ∧ (isLower 'Y' → isLower d) :=
  ⟨by decide, encrypt_preserves_case "xY z".toList 1 'Y' (by decide)⟩

/-- C13: for every printable-ASCII string `s`, `encrypt s` and `decrypt s` have
the length of `s` (in characters and in bytes), and every position that holds
a non-letter in `s` holds the same character in both outputs. -/
theorem nonletters_pass_through (s : GoString) (_hs : isPrintableASCII s) :
    (encrypt s).length = s.length ∧ (decrypt s).length = s.length ∧
      byteLen (encrypt s) = byteLen s ∧ byteLen (decrypt s) = byteLen s ∧
      ∀ (i : Nat) (c : Char), s[i]? = some c → ¬ isLetter c →
        (encrypt s)[i]? = some c ∧ (decrypt s)[i]? = some c := by
  refine ⟨length_encryptFrom s 0, length_decryptFrom s 0, byteLen_encryptFrom s 0,
    byteLen_decryptFrom s 0, ?_⟩
  intro i c h hl
  constructor
  · have e := getElem?_encryptFrom s 0 i c h
    rw [rotateForward_other c _ hl] at e
    exact e
  · have e := getElem?_decryptFrom s 0 i c h
    rw [rotateBackward_other c _ hl] at e
    exact e

theorem nonletters_pass_through_witness :
    isPrintableASCII "a1, b!".toList ∧
    ((encrypt "a1, b!".toList).length = "a1, b!".toList.length ∧
      (decrypt "a1, b!".toList).length = "a1, b!".toList.length ∧
      byteLen (encrypt "a1, b!".toList) = byteLen "a1, b!".toList ∧
      byteLen (decrypt "a1, b!".toList) = byteLen "a1, b!".toList ∧
      ∀ (i : Nat) (c : Char), "a1, b!".toList[i]? = some c → ¬ isLetter c →
        (encrypt "a1, b!".toList)[i]? = some c ∧ (decrypt "a1, b!".toList)[i]? = some c) :=
  ⟨by unfold isPrintableASCII; decide,
   nonletters_pass_through "a1, b!".toList (by unfold isPrintableASCII; decide)⟩

/-- C16: for every letter `c` and every key position, the value
`c - shift + 26 - base` computed by `decrypt` is not negative and its remainder
modulo 26 lies in 0..25, so that `decrypt` maps an uppercase letter to an
uppercase letter and a lowercase letter to a lowercase letter, in the loop body
and at every position of a message. -/
theorem decrypt_rotation_in_range (i : Nat) (c : Char) :
    (isUpper c →
      0 ≤ (c.toNat : Int) - shift i + 26 - ('A'.toNat : Int) ∧
      0 ≤ ((c.toNat : Int) - shift i + 26 - ('A'.toNat : Int)).tmod 26 ∧
      ((c.toNat : Int) - shift i + 26 - ('A'.toNat : Int)).tmod 26 ≤ 25 ∧
      ∃ d : Char, decryptRune i c = [d] ∧ isUpper d) ∧
    (isLower c →
      0 ≤ (c.toNat : Int) - shift i + 26 - ('a'.toNat : Int) ∧
      0 ≤ ((c.toNat : Int) - shift i + 26 - ('a'.toNat : Int)).tmod 26 ∧
      ((c.toNat : Int) - shift i + 26 - ('a'.toNat : Int)).tmod 26 ≤ 25 ∧
      ∃ d : Char, decryptRune i c = [d] ∧ isLower d) ∧
    (∀ (s : GoString) (j : Nat), s[j]? = some c →
      ∃ d : Char, (decrypt s)[j]? = some d ∧ (isUpper c → isUpper d) ∧
        (isLower c → isLower d)) := by
  obtain ⟨k, hk, hs, _⟩ := shift_eq i
  refine ⟨?_, ?_, ?_⟩
  · intro hU
    have hc := hU
    unfold isUpper at hc
    rw [charA, charZ] at hc
    rw [hs, charA]
    have hnn : (0 : Int) ≤ (c.toNat : Int) - (k : Int) + 26 - ((65 : Nat) : Int) := by omega
    rw [Int.tmod_eq_emod hnn (by norm_num)]
    exact ⟨hnn, by omega, by omega, _, decryptRune_eq i c, isUpper_rotateBackward c _ hU⟩
  · intro hL
    have hc := hL
    unfold isLower at hc
    rw [chara, charz] at hc
    rw [hs, chara]
    have hnn : (0 : Int) ≤ (c.toNat : Int) - (k : Int) + 26 - ((97 : Nat) : Int) := by omega
    rw [Int.tmod_eq_emod hnn (by norm_num)]
    exact ⟨hnn, by omega, by omega, _, decryptRune_eq i c, isLower_rotateBackward c _ hL⟩
  · intro s j h
    exact ⟨_, getElem?_decryptFrom s 0 j c h, isUpper_rotateBackward c _,
      isLower_rotateBackward c _⟩

/-- C17: for every string of valid UTF-8 text, with or without characters
outside ASCII, decrypting the encryption gives back the string, and every
character outside ASCII is copied unchanged, in place, by `encrypt` and by
`decrypt`. -/
theorem decrypt_encrypt_utf8 (s : GoString) :
    decrypt (encrypt s) = s ∧
      ∀ (i : Nat) (c : Char), s[i]? = some c → 128 ≤ c.toNat →
        (encrypt s)[i]? = some c ∧ (decrypt s)[i]? = some c := by
  refine ⟨decryptFrom_encryptFrom s 0, ?_⟩
  intro i c h hc
  have hl := not_isLetter_of_nonASCII c hc
  constructor
  · have e := getElem?_encryptFrom s 0 i c h
    rw [rotateForward_other c _ hl] at e
    exact e
  · have e := getElem?_decryptFrom s 0 i c h
    rw [rotateBackward_other c _ hl] at e
    exact e

/-- C18: the key character `encrypt` and `decrypt` use for the character of
index `i` is `"KOODJOHVI"[b mod 9]`, where `b` is the byte offset of that
character, the number of UTF-8 bytes of the characters before it: every
character before it moves the key position by its number of bytes.  In "éab"
the letter `b` has byte offset 3 and is rotated by `key[3] = 'D'` to `e`, not
by `key[2] = 'O'`.  On ASCII input the byte offset is the index. -/
theorem key_position_is_byte_offset (s : GoString) :
    (∀ (i : Nat) (c : Char), s[i]? = some c →
      (encrypt s)[i]? =
          some (rotateForward c
            (alphabetPosition ("KOODJOHVI".toList.getD (byteLen (s.take i) % 9) 'A'))) ∧
        (decrypt s)[i]? =
          some (rotateBackward c
            (alphabetPosition ("KOODJOHVI".toList.getD (byteLen (s.take i) % 9) 'A'))) ∧
        byteLen (s.take (i + 1)) = byteLen (s.take i) + c.utf8Size) ∧
    ((∀ c ∈ s, c.toNat < 128) → ∀ i : Nat, i ≤ s.length → byteLen (s.take i) = i) ∧
    (byteLen ("éab".toList.take 2) = 3 ∧ "KOODJOHVI".toList.getD 3 'A' = 'D' ∧
      "KOODJOHVI".toList.getD 2 'A' = 'O' ∧
      encrypt "éab".toList = "éoe".toList ∧
      rotateForward 'b' (alphabetPosition 'D') = 'e' ∧
      rotateForward 'b' (alphabetPosition 'O') = 'p') := by
  refine ⟨?_, byteLen_take_ascii s, by decide⟩
  intro i c h
  have e1 := getElem?_encryptFrom s 0 i c h
  have e2 := getElem?_decryptFrom s 0 i c h
  rw [Nat.zero_add] at e1 e2
  refine ⟨e1, e2, ?_⟩
  rw [List.take_succ, byteLen_append, h]
  rfl

/-! ## More facts about the controller -/

theorem showLinesFrom_append (notes : List Note) (note : Note) : ∀ i : Nat,
    showLinesFrom i (notes ++ [note]) =
      showLinesFrom i notes ++ [showLine (i + notes.length) note] := by
  induction notes with
  | nil => intro i; rfl
  | cons n rest ih =>
    intro i
    rw [List.cons_append, showLinesFrom, ih, showLinesFrom, List.length_cons, List.cons_append,
      Nat.add_assoc, Nat.add_comm 1 rest.length]

theorem showNotes_append (notes : List Note) (note : Note) :
    showNotes (notes ++ [note]) =
      "Notes:".toList :: (showLinesFrom 0 notes ++ [showLine notes.length note] ++ [[]]) := by
  unfold showNotes
  rw [if_neg (by simp), showLinesFrom_append, Nat.zero_add]

/-- C11: for every content `c` of printable ASCII (the content after trimming)
added with encryption, the stored content is `encrypt c`, the note is flagged
as encrypted, and the content `showNotes` prints in the line of that note is
`c`; for a note whose flag is false the printed content is the stored content;
and `showNotes` (menu choice 1) leaves the collection, the flag and the file as
they are. -/
theorem display_decodes (table : Char → Char) (notes : List Note) (werePurged : Bool)
    (name content answer now : GoString)
    (hn : trimSpace name ≠ []) (hc : trimSpace content ≠ [])
    (_hp : isPrintableASCII (trimSpace content))
    (hy : trimSpace (toLower table answer) = "y".toList) :
    (∃ note : Note,
      (addNote table notes werePurged name content answer now).notes = notes ++ [note] ∧
      note.IsEncrypted = true ∧
      note.Content = encrypt (trimSpace content) ∧
      displayContent note = trimSpace content ∧
      showNotes (notes ++ [note]) =
        "Notes:".toList ::
          (showLinesFrom 0 notes ++
            [colorYellow ++ sprintf03d (notes.length + 1) ++ colorReset ++ " - ".toList ++
              colorGreen ++ "[".toList ++ trimSpace name ++ "]".toList ++ colorReset ++
              " ".toList ++ trimSpace content ++ " ".toList ++
              colorCyan ++ "[".toList ++ now ++ "]".toList ++ colorReset] ++ [[]])) ∧
    (∀ note : Note, note.IsEncrypted = false → displayContent note = note.Content) ∧
    (∀ (st : State) (inp : Input), inp.choice = some 1 →
      mainStep table st inp = Step.running st) := by
  refine ⟨?_, ?_, ?_⟩
  · obtain ⟨message, e⟩ := addNote_accepted table notes werePurged name content answer now hn hc
    rw [e]
    have hd : displayContent
        { Name := trimSpace name,
          IsEncrypted := decide (trimSpace (toLower table answer) = "y".toList),
          Timestamp := now,
          Content :=
            if trimSpace (toLower table answer) = "y".toList then encrypt (trimSpace content)
            else trimSpace content } = trimSpace content := by
      unfold displayContent
      simp only [hy, if_true, decide_True]
      exact decryptFrom_encryptFrom _ 0
    refine ⟨_, rfl, ?_, ?_, hd, ?_⟩
    · simp only [hy, decide_True]
    · simp only [hy, if_true]
    · rw [showNotes_append]
      unfold showLine
      rw [hd]
  · intro note h
    unfold displayContent
    rw [h]
    rfl
  · intro st inp h
    unfold mainStep
    rw [h]
    rfl

theorem display_decodes_witness :
    trimSpace "b\n".toList ≠ [] ∧ trimSpace "world\n".toList ≠ [] ∧
    isPrintableASCII (trimSpace "world\n".toList) ∧
    trimSpace (toLower id "y\n".toList) = "y".toList ∧
    trimSpace "world\n".toList = "world".toList ∧
    ((∃ note : Note,
      (addNote id [Note.mk "a".toList false "ts1".toList "hello".toList] true "b\n".toList
          "world\n".toList "y\n".toList "ts2".toList).notes =
        [Note.mk "a".toList false "ts1".toList "hello".toList] ++ [note] ∧
      note.IsEncrypted = true ∧
      note.Content = encrypt (trimSpace "world\n".toList) ∧
      displayContent note = trimSpace "world\n".toList ∧
      showNotes ([Note.mk "a".toList false "ts1".toList "hello".toList] ++ [note]) =
        "Notes:".toList ::
          (showLinesFrom 0 [Note.mk "a".toList false "ts1".toList "hello".toList] ++
            [colorYellow ++
              sprintf03d ([Note.mk "a".toList false "ts1".toList "hello".toList].length + 1) ++
              colorReset ++ " - ".toList ++
              colorGreen ++ "[".toList ++ trimSpace "b\n".toList ++ "]".toList ++ colorReset ++
              " ".toList ++ trimSpace "world\n".toList ++ " ".toList ++
              colorCyan ++ "[".toList ++ "ts2".toList ++ "]".toList ++ colorReset] ++ [[]])) ∧
    (∀ note : Note, note.IsEncrypted = false → displayContent note = note.Content) ∧
    (∀ (st : State) (inp : Input), inp.choice = some 1 →
      mainStep id st inp = Step.running st)) :=
  ⟨by decide, by decide, by unfold isPrintableASCII; decide, by decide, by decide,
   display_decodes id [Note.mk "a".toList false "ts1".toList "hello".toList] true "b\n".toList
     "world\n".toList "y\n".toList "ts2".toList (by decide) (by decide)
     (by unfold isPrintableASCII; decide) (by decide)⟩

/-- Inside the range `1 ≤ k ≤ len(notes)` both slice expressions of `deleteNote`
are in bounds and the note of 1-based position `k` is taken out. -/
theorem deleteNote_in_range (notes : List Note) (werePurged : Bool) (k : Nat)
    (h1 : 1 ≤ k) (h2 : k ≤ notes.length) :
    sliceTo notes ((k : Int) - 1) = some (notes.take (k - 1)) ∧
      sliceFrom notes (k : Int) = some (notes.drop k) ∧
      deleteNote notes werePurged (some (k : Int)) =
        some { notes := notes.take (k - 1) ++ notes.drop k, werePurged := werePurged,
               message := "Note deleted successfully." } := by
  have hlen : ¬ notes.length = 0 := by omega
  have hb : ¬ ((k : Int) < 0 ∨ (k : Int) > (notes.length : Int)) := by omega
  have h0 : ¬ (k : Int) = 0 := by omega
  have hto : (0 : Int) ≤ (k : Int) - 1 ∧ (k : Int) - 1 ≤ (notes.length : Int) := by omega
  have hfrom : (0 : Int) ≤ (k : Int) ∧ (k : Int) ≤ (notes.length : Int) := by omega
  have e1 : ((k : Int) - 1).toNat = k - 1 := by omega
  have e2 : (k : Int).toNat = k := by omega
  have s1 : sliceTo notes ((k : Int) - 1) = some (notes.take (k - 1)) := by
    unfold sliceTo
    rw [if_pos hto, e1]
  have s2 : sliceFrom notes (k : Int) = some (notes.drop k) := by
    unfold sliceFrom
    rw [if_pos hfrom, e2]
  refine ⟨s1, s2, ?_⟩
  unfold deleteNote
  simp only [hlen, hb, h0, s1, s2, if_false]

/-- C14, as stated, fails: in a collection of two notes the index 2, the length,
is the 1-based position of the second note; `deleteNote` at that index takes
out that existing note and keeps the first. -/
theorem delete_at_length_removes_last :
    [Note.mk "a".toList false "t1".toList "x".toList,
      Note.mk "b".toList true "t2".toList "y".toList].length = 2 ∧
    [Note.mk "a".toList false "t1".toList "x".toList,
      Note.mk "b".toList true "t2".toList "y".toList][2 - 1]? =
        some (Note.mk "b".toList true "t2".toList "y".toList) ∧
    deleteNote [Note.mk "a".toList false "t1".toList "x".toList,
        Note.mk "b".toList true "t2".toList "y".toList] true (some 2) =
      some { notes := [Note.mk "a".toList false "t1".toList "x".toList], werePurged := true,
             message := "Note deleted successfully." } ∧
    Note.mk "b".toList true "t2".toList "y".toList ∉
      [Note.mk "a".toList false "t1".toList "x".toList] := by
  decide

/-- C14, as amended: for every non-empty collection of length `n`, the index `n`,
which the bounds check of `deleteNote` accepts, is the last valid 1-based
position.  The removal slicing at index `n` is in bounds, `notes[:n-1]` being
the first `n - 1` notes and `notes[n:]` the empty slice, and `deleteNote`
removes the last note, the one of zero-based index `n - 1`, and nothing else.
The index `n + 1` is the first one the bounds check rejects. -/
theorem delete_upper_bound (notes : List Note) (werePurged : Bool) (hne : notes ≠ []) :
    sliceTo notes ((notes.length : Int) - 1) = some (notes.take (notes.length - 1)) ∧
    sliceFrom notes (notes.length : Int) = some [] ∧
    deleteNote notes werePurged (some (notes.length : Int)) =
      some { notes := notes.take (notes.length - 1), werePurged := werePurged,
             message := "Note deleted successfully." } ∧
    (∃ last : Note, notes[notes.length - 1]? = some last ∧
      notes = notes.take (notes.length - 1) ++ [last]) ∧
    deleteNote notes werePurged (some ((notes.length : Int) + 1)) =
      some { notes := notes, werePurged := werePurged,
             message := "Invalid choice, note index out of bounds." } := by
  have hpos : 1 ≤ notes.length := List.length_pos.mpr hne
  obtain ⟨s1, s2, d⟩ := deleteNote_in_range notes werePurged notes.length hpos (Nat.le_refl _)
  rw [List.drop_length] at s2 d
  rw [List.append_nil] at d
  refine ⟨s1, s2, d, ?_, ?_⟩
  · refine ⟨notes.getLast hne, ?_, ?_⟩
    · rw [List.getLast_eq_getElem, List.getElem?_eq_getElem]
    · rw [← List.dropLast_eq_take]
      exact (List.dropLast_append_getLast hne).symm
  · have hlen : ¬ notes.length = 0 := by omega
    have hb : ((notes.length : Int) + 1 < 0 ∨ (notes.length : Int) + 1 > (notes.length : Int)) := by
      omega
    unfold deleteNote
    simp only [hlen, hb, if_false, if_true]

theorem delete_upper_bound_witness :
    [Note.mk "a".toList false "t1".toList "x".toList,
      Note.mk "b".toList true "t2".toList "y".toList] ≠ [] ∧
    deleteNote [Note.mk "a".toList false "t1".toList "x".toList,
        Note.mk "b".toList true "t2".toList "y".toList] false
        (some (([Note.mk "a".toList false "t1".toList "x".toList,
          Note.mk "b".toList true "t2".toList "y".toList].length : Nat) : Int)) =
      some { notes := List.take
               ([Note.mk "a".toList false "t1".toList "x".toList,
                 Note.mk "b".toList true "t2".toList "y".toList].length - 1)
               [Note.mk "a".toList false "t1".toList "x".toList,
                Note.mk "b".toList true "t2".toList "y".toList],
             werePurged := false, message := "Note deleted successfully." } :=
  ⟨by decide,
   (delete_upper_bound [Note.mk "a".toList false "t1".toList "x".toList,
      Note.mk "b".toList true "t2".toList "y".toList] false (by decide)).2.2.1⟩

/-- What `addNote` does to the collection and the flag: nothing at all, or it
leaves a non-empty collection with the flag set. -/
theorem addNote_flag (table : Char → Char) (notes : List Note) (werePurged : Bool)
    (name content encryptChoice now : GoString) :
    ((addNote table notes werePurged name content encryptChoice now).notes = notes ∧
      (addNote table notes werePurged name content encryptChoice now).werePurged = werePurged) ∨
    ((addNote table notes werePurged name content encryptChoice now).notes ≠ [] ∧
      (addNote table notes werePurged name content encryptChoice now).werePurged = true) := by
  by_cases hn : trimSpace name = []
  · left
    unfold addNote
    simp only [hn, if_true, and_self]
  · by_cases hc : trimSpace content = []
    · left
      unfold addNote
      simp only [hn, hc, if_true, if_false, and_self]
    · right
      obtain ⟨message, e⟩ :=
        addNote_accepted table notes werePurged name content encryptChoice now hn hc
      rw [e]
      exact ⟨by simp, rfl⟩

/-- What `deleteNote` does to the collection and the flag: the flag is never
written, and an empty collection stays empty. -/
theorem deleteNote_flag (notes : List Note) (werePurged : Bool) (scan : Option Int)
    (s : Session) (h : deleteNote notes werePurged scan = some s) :
    s.werePurged = werePurged ∧ (notes = [] → s.notes = []) := by
  unfold deleteNote at h
  by_cases hlen : notes.length = 0
  · have hnil : notes = [] := List.length_eq_zero.mp hlen
    rw [if_pos hlen] at h
    cases werePurged
    · simp only [Bool.false_eq_true, if_false, Option.some.injEq] at h
      subst h
      exact ⟨rfl, fun _ => hnil⟩
    · simp only [if_true, Option.some.injEq] at h
      subst h
      exact ⟨rfl, fun _ => hnil⟩
  · have hne : notes ≠ [] := fun e => hlen (by rw [e]; rfl)
    rw [if_neg hlen] at h
    refine ⟨?_, fun e => absurd e hne⟩
    cases scan with
    | none =>
      simp only [Option.some.injEq] at h
      subst h
      rfl
    | some choice =>
      simp only at h
      by_cases hb : choice < 0 ∨ choice > (notes.length : Int)
      · rw [if_pos hb] at h
        simp only [Option.some.injEq] at h
        subst h
        rfl
      · rw [if_neg hb] at h
        by_cases h0 : choice = 0
        · rw [if_pos h0] at h
          simp only [Option.some.injEq] at h
          subst h
          rfl
        · rw [if_neg h0] at h
          cases hs1 : sliceTo notes (choice - 1) with
          | none =>
            rw [hs1] at h
            cases h
          | some front =>
            cases hs2 : sliceFrom notes choice with
            | none =>
              rw [hs1, hs2] at h
              cases h
            | some back =>
              rw [hs1, hs2] at h
              simp only [Option.some.injEq] at h
              subst h
              rfl

/-- One iteration of the loop of `main` keeps the fact that a non-empty
collection has the flag set, and sets the flag exactly when it was set before
or the collection is not empty afterwards. -/
theorem mainStep_flag (table : Char → Char) (st next : State) (inp : Input)
    (hI : st.notes ≠ [] → st.werePurged = true)
    (h : mainStep table st inp = Step.running next) :
    (next.notes ≠ [] → next.werePurged = true) ∧
      (next.werePurged = true ↔ (st.werePurged = true ∨ next.notes ≠ [])) := by
  have key : (next.notes = st.notes ∧ next.werePurged = st.werePurged) ∨
      (next.notes ≠ [] ∧ next.werePurged = true) ∨
      (next.werePurged = st.werePurged ∧ (st.notes = [] → next.notes = [])) := by
    unfold mainStep at h
    cases hc : inp.choice with
    | none =>
      rw [hc] at h
      simp only [Step.running.injEq] at h
      subst h
      exact Or.inl ⟨rfl, rfl⟩
    | some n =>
      rw [hc] at h
      by_cases h1 : n = 1
      · subst h1
        simp only [Step.running.injEq] at h
        subst h
        exact Or.inl ⟨rfl, rfl⟩
      · by_cases h2 : n = 2
        · subst h2
          simp only [Step.running.injEq] at h
          subst h
          rcases addNote_flag table st.notes st.werePurged inp.name inp.content
            inp.encryptChoice inp.now with ⟨a, b⟩ | ⟨a, b⟩
          · exact Or.inl ⟨a, b⟩
          · exact Or.inr (Or.inl ⟨a, b⟩)
        · by_cases h3 : n = 3
          · subst h3
            simp only at h
            cases hd : deleteNote st.notes st.werePurged inp.index with
            | none =>
              rw [hd] at h
              cases h
            | some s =>
              rw [hd] at h
              simp only [Step.running.injEq] at h
              subst h
              exact Or.inr (Or.inr (deleteNote_flag _ _ _ s hd))
          · by_cases h4 : n = 4
            · subst h4
              cases h
            · have hrun : Step.running st = Step.running next := by
                rw [← h]
                split <;> simp_all
              simp only [Step.running.injEq] at hrun
              subst hrun
              exact Or.inl ⟨rfl, rfl⟩
  rcases key with ⟨a, b⟩ | ⟨a, b⟩ | ⟨a, b⟩
  · rw [a, b]
    exact ⟨hI, ⟨fun w => Or.inl w, fun w => w.elim id hI⟩⟩
  · exact ⟨fun _ => b, ⟨fun _ => Or.inr a, fun _ => b⟩⟩
  · have hI2 : next.notes ≠ [] → next.werePurged = true := by
      intro hne
      rw [a]
      exact hI (fun e => hne (b e))
    rw [a] at hI2 ⊢
    exact ⟨hI2, ⟨fun w => Or.inl w, fun w => w.elim id hI2⟩⟩

theorem trace_eq_cons (table : Char → Char) (st : State) (inputs : List Input) :
    ∃ tail, trace table st inputs = st :: tail := by
  cases inputs with
  | nil => exact ⟨[], rfl⟩
  | cons inp rest =>
    unfold trace
    cases mainStep table st inp with
    | running next => exact ⟨_, rfl⟩
    | exited => exact ⟨[], rfl⟩
    | panicked => exact ⟨[], rfl⟩

/-- Along every run of the loop of `main` that starts in a state where a
non-empty collection has the flag set, the state reached last has that
property too, and its flag is set exactly when the flag was set at the start
or some state of the run had a non-empty collection. -/
theorem trace_flag (table : Char → Char) (inputs : List Input) :
    ∀ (st last : State), (st.notes ≠ [] → st.werePurged = true) →
      (trace table st inputs).getLast? = some last →
      (last.notes ≠ [] → last.werePurged = true) ∧
        (last.werePurged = true ↔
          (st.werePurged = true ∨ ∃ s ∈ trace table st inputs, s.notes ≠ [])) := by
  have base : ∀ st : State, (st.notes ≠ [] → st.werePurged = true) →
      (st.werePurged = true ↔ (st.werePurged = true ∨ ∃ s ∈ [st], s.notes ≠ [])) := by
    intro st hI
    constructor
    · exact fun w => Or.inl w
    · rintro (w | ⟨s, hs, hne⟩)
      · exact w
      · rw [List.mem_singleton] at hs
        subst hs
        exact hI hne
  induction inputs with
  | nil =>
    intro st last hI hl
    simp only [trace, List.getLast?_singleton, Option.some.injEq] at hl
    subst hl
    exact ⟨hI, base st hI⟩
  | cons inp rest ih =>
    intro st last hI hl
    unfold trace at hl ⊢
    cases hstep : mainStep table st inp with
    | exited =>
      rw [hstep] at hl
      simp only [List.getLast?_singleton, Option.some.injEq] at hl
      subst hl
      exact ⟨hI, base st hI⟩
    | panicked =>
      rw [hstep] at hl
      simp only [List.getLast?_singleton, Option.some.injEq] at hl
      subst hl
      exact ⟨hI, base st hI⟩
    | running next =>
      rw [hstep] at hl
      simp only at hl ⊢
      obtain ⟨tail, htail⟩ := trace_eq_cons table next rest
      obtain ⟨hI2, hiff⟩ := mainStep_flag table st next inp hI hstep
      have hl2 : (trace table next rest).getLast? = some last := by
        rw [htail] at hl ⊢
        rw [List.getLast?_cons_cons] at hl
        exact hl
      obtain ⟨hIl, hlast⟩ := ih next last hI2 hl2
      refine ⟨hIl, ?_⟩
      rw [hlast, hiff]
      constructor
      · rintro ((w | hne) | ⟨s, hs, hne⟩)
        · exact Or.inl w
        · refine Or.inr ⟨next, List.mem_cons_of_mem _ ?_, hne⟩
          rw [htail]
          exact List.mem_cons_self _ _
        · exact Or.inr ⟨s, List.mem_cons_of_mem _ hs, hne⟩
      · rintro (w | ⟨s, hs, hne⟩)
        · exact Or.inl (Or.inl w)
        · rcases List.mem_cons.mp hs with e | hs2
          · subst e
            exact Or.inl (Or.inl (hI hne))
          · exact Or.inr ⟨s, hs2, hne⟩

theorem start_flag (file : Option GoString) (st0 : State) (h : start file = some st0) :
    st0.werePurged = true ↔ st0.notes ≠ [] := by
  unfold start at h
  cases hl : loadNotes file with
  | none =>
    rw [hl] at h
    cases h
  | some notes =>
    rw [hl] at h
    simp only [Option.some.injEq] at h
    subst h
    simp only [ne_eq, List.length_eq_zero, decide_eq_true_eq]

/-- C15: in every state reached from the start of the program by any sequence
of menu operations, the flag `werePurged` is true if and only if the collection
was non-empty in some state of the session so far (after the load or after an
operation).  So a non-empty collection has the flag true, no operation turns
the flag from true to false, and `deleteNote` on an empty collection prints the
"already purged" message exactly when the collection once held notes and the
"already empty" message otherwise. -/
theorem session_flag_invariant (table : Char → Char) (file : Option GoString) (st0 last : State)
    (inputs : List Input) (h0 : start file = some st0)
    (hl : (trace table st0 inputs).getLast? = some last) :
    (last.werePurged = true ↔ ∃ s ∈ trace table st0 inputs, s.notes ≠ []) ∧
    (last.notes ≠ [] → last.werePurged = true) ∧
    (∀ (inp : Input) (next : State), mainStep table last inp = Step.running next →
      last.werePurged = true → next.werePurged = true) ∧
    (last.notes = [] → ∀ scan : Option Int,
      ((∃ s ∈ trace table st0 inputs, s.notes ≠ []) →
        deleteNote last.notes last.werePurged scan =
          some { notes := [], werePurged := true,
                 message := "You already purged all of your most wildest ideas." }) ∧
      ((¬ ∃ s ∈ trace table st0 inputs, s.notes ≠ []) →
        deleteNote last.notes last.werePurged scan =
          some { notes := [], werePurged := false,
                 message := "The collection is already empty." })) := by
  have hs := start_flag file st0 h0
  obtain ⟨hI, hiff⟩ := trace_flag table inputs st0 last hs.mpr hl
  have hmain : last.werePurged = true ↔ ∃ s ∈ trace table st0 inputs, s.notes ≠ [] := by
    rw [hiff]
    constructor
    · rintro (w | h)
      · obtain ⟨tail, htail⟩ := trace_eq_cons table st0 inputs
        exact ⟨st0, by rw [htail]; exact List.mem_cons_self _ _, hs.mp w⟩
      · exact h
    · exact fun h => Or.inr h
  refine ⟨hmain, hI, ?_, ?_⟩
  · intro inp next hstep w
    exact ((mainStep_flag table last next inp hI hstep).2).mpr (Or.inl w)
  · intro hempty scan
    rw [hempty]
    constructor
    · intro h
      rw [hmain.mpr h]
      rfl
    · intro h
      have : last.werePurged = false := by
        cases hw : last.werePurged with
        | false => rfl
        | true => exact absurd (hmain.mp hw) h
      rw [this]
      rfl

theorem session_flag_invariant_witness :
    start none = some { notes := [], werePurged := false, file := none } ∧
    (trace id { notes := [], werePurged := false, file := none } sampleInputs).getLast? =
      some { notes := [], werePurged := true, file := some [] } ∧
    ((State.mk [] true (some [])).werePurged = true ↔
      ∃ s ∈ trace id { notes := [], werePurged := false, file := none } sampleInputs,
        s.notes ≠ []) ∧
    ((State.mk [] true (some [])).notes = [] → ∀ scan : Option Int,
      ((∃ s ∈ trace id { notes := [], werePurged := false, file := none } sampleInputs,
          s.notes ≠ []) →
        deleteNote (State.mk [] true (some [])).notes (State.mk [] true (some [])).werePurged
            scan =
          some { notes := [], werePurged := true,
                 message := "You already purged all of your most wildest ideas." }) ∧
      ((¬ ∃ s ∈ trace id { notes := [], werePurged := false, file := none } sampleInputs,
          s.notes ≠ []) →
        deleteNote (State.mk [] true (some [])).notes (State.mk [] true (some [])).werePurged
            scan =
          some { notes := [], werePurged := false,
                 message := "The collection is already empty." })) :=
  ⟨by decide, by decide,
   (session_flag_invariant id none { notes := [], werePurged := false, file := none }
      { notes := [], werePurged := true, file := some [] } sampleInputs (by decide)
      (by decide)).1,
   (session_flag_invariant id none { notes := [], werePurged := false, file := none }
      { notes := [], werePurged := true, file := some [] } sampleInputs (by decide)
      (by decide)).2.2.2⟩

/-! ## More facts about the store -/

theorem not_mem_dropCR (c : Char) (s : GoString) (h : c ∉ s) : c ∉ dropCR s := by
  unfold dropCR
  split
  · exact fun m => h (List.mem_of_mem_dropLast m)
  · exact h

/-- No line the scanner delivers contains a line feed. -/
theorem scanLinesFrom_no_newline (text : GoString) :
    ∀ (cur : GoString) (lines : List GoString), '\n' ∉ cur →
      scanLinesFrom cur text = some lines → ∀ l ∈ lines, '\n' ∉ l := by
  induction text with
  | nil =>
    intro cur lines hcur h l hl
    unfold scanLinesFrom at h
    by_cases he : cur = []
    · rw [if_pos he] at h
      simp only [Option.some.injEq] at h
      subst h
      simp at hl
    · rw [if_neg he] at h
      by_cases hb : byteLen cur < maxScanTokenSize
      · rw [if_pos hb] at h
        simp only [Option.some.injEq] at h
        subst h
        rw [List.mem_singleton] at hl
        subst hl
        exact not_mem_dropCR _ _ hcur
      · rw [if_neg hb] at h
        cases h
  | cons c rest ih =>
    intro cur lines hcur h l hl
    unfold scanLinesFrom at h
    by_cases hc : c = '\n'
    · rw [if_pos hc] at h
      by_cases hb : byteLen cur < maxScanTokenSize
      · rw [if_pos hb] at h
        cases hrest : scanLinesFrom [] rest with
        | none =>
          rw [hrest] at h
          cases h
        | some ls =>
          rw [hrest] at h
          simp only [Option.some.injEq] at h
          subst h
          rcases List.mem_cons.mp hl with e | m
          · subst e
            exact not_mem_dropCR _ _ hcur
          · exact ih [] ls (by simp) hrest l m
      · rw [if_neg hb] at h
        cases h
    · rw [if_neg hc] at h
      refine ih (cur ++ [c]) lines ?_ h l hl
      intro m
      rcases List.mem_append.mp m with m1 | m2
      · exact hcur m1
      · exact hc (List.mem_singleton.mp m2).symm

/-- A line that is parsed into a note consists of the name, a flag token and
the timestamp, all three without `:` and each followed by `:`, and the
content. -/
theorem parseLine_eq_some (line : GoString) (note : Note) (h : parseLine line = some note) :
    ∃ token : GoString, ':' ∉ note.Name ∧ ':' ∉ token ∧ ':' ∉ note.Timestamp ∧
      line = note.Name ++ ':' :: (token ++ ':' :: (note.Timestamp ++ ':' :: note.Content)) := by
  rcases splitN_cases line with ⟨a, b, c, d, ha, hb, hc, e⟩ | ⟨_, _, hnone⟩
  · subst e
    rw [parseLine_four a b c d ha hb hc] at h
    simp only [Option.some.injEq] at h
    subst h
    exact ⟨b, ha, hb, hc, rfl⟩
  · rw [hnone] at h
    cases h

theorem getLast?_recordBody (note : Note) (h : note.Content.getLast? ≠ some '\r') :
    (recordBody note).getLast? ≠ some '\r' := by
  have e : recordBody note =
      (note.Name ++ ':' :: (sprintBool note.IsEncrypted ++ ':' :: note.Timestamp)) ++
        ':' :: note.Content := by
    unfold recordBody
    simp only [List.append_assoc, List.cons_append]
  rw [e, List.getLast?_append_of_ne_nil _ (by simp)]
  cases hc : note.Content with
  | nil => decide
  | cons x xs =>
    rw [List.getLast?_cons_cons, ← hc]
    exact h

/-- The scanner on the text `saveNotes` writes: one line per note, provided no
record has a line feed or ends in a carriage return and every record fits into
the buffer. -/
theorem scanLines_saveNotes_of_dropCR (C : List Note)
    (h : ∀ n ∈ C, '\n' ∉ recordBody n ∧ dropCR (recordBody n) = recordBody n ∧
      byteLen (recordBody n) < maxScanTokenSize) :
    scanLines (saveNotes C) = some (C.map recordBody) := by
  unfold scanLines
  induction C with
  | nil => rfl
  | cons n rest ih =>
    obtain ⟨h1, h2, h3⟩ := h n (List.mem_cons_self _ _)
    have ih' := ih (fun m hm => h m (List.mem_cons_of_mem _ hm))
    rw [saveNotes, recordLine_eq, List.append_assoc, List.singleton_append,
      scanLinesFrom_line _ _ h1, List.nil_append, if_pos h3, ih', h2]
    rfl

/-- The fields of every loaded note: no `:` in the name and in the timestamp,
no line feed anywhere. -/
theorem loadNotes_fields (text : GoString) (C : List Note) (h : loadNotes (some text) = some C) :
    ∀ n ∈ C, ':' ∉ n.Name ∧ ':' ∉ n.Timestamp ∧
      '\n' ∉ n.Name ∧ '\n' ∉ n.Timestamp ∧ '\n' ∉ n.Content := by
  unfold loadNotes at h
  simp only at h
  cases hs : scanLines text with
  | none =>
    rw [hs] at h
    cases h
  | some lines =>
    rw [hs] at h
    simp only [Option.some.injEq] at h
    subst h
    intro n hn
    rw [loadLines_eq_filterMap, List.mem_filterMap] at hn
    obtain ⟨line, hline, hp⟩ := hn
    have hnl : '\n' ∉ line := scanLinesFrom_no_newline text [] lines (by simp) hs line hline
    obtain ⟨token, h1, _, h3, e⟩ := parseLine_eq_some line n hp
    rw [e] at hnl
    simp only [List.mem_append, List.mem_cons, not_or] at hnl
    exact ⟨h1, h3, hnl.1, hnl.2.2.2.2.1, hnl.2.2.2.2.2.2⟩

/-- C19, as amended: for every file content `F` that `loadNotes` reads, with
`C = loadNotes(F)`: if no content of a loaded note ends in a carriage return
and every record line `saveNotes` writes for `C` has at most 65536 bytes, line
terminator included, then loading the text `saveNotes` writes for `C` returns
`C` again. -/
theorem reload_fixed_point (text : GoString) (C : List Note)
    (h : loadNotes (some text) = some C)
    (hcr : ∀ n ∈ C, n.Content.getLast? ≠ some '\r')
    (hlen : ∀ n ∈ C, byteLen (recordLine n) ≤ maxScanTokenSize) :
    loadNotes (some (saveNotes C)) = some C := by
  have hf := loadNotes_fields text C h
  have hs : scanLines (saveNotes C) = some (C.map recordBody) := by
    apply scanLines_saveNotes_of_dropCR
    intro n hn
    obtain ⟨_, _, a, b, c⟩ := hf n hn
    have hl := hlen n hn
    rw [byteLen_recordLine] at hl
    refine ⟨not_mem_recordBody _ (Or.inl rfl) n a b c, ?_, by omega⟩
    unfold dropCR
    rw [if_neg (getLast?_recordBody n (hcr n hn))]
  have hp : loadLines (C.map recordBody) = C :=
    loadLines_recordBody C (fun n hn => ⟨(hf n hn).1, (hf n hn).2.1⟩)
  unfold loadNotes
  simp only [hs, hp]

theorem reload_fixed_point_witness :
    loadNotes (some "junk\na:yes:2024-01-01 10:20:30:hello\r\n".toList) =
      some [Note.mk "a".toList false "2024-01-01 10".toList "20:30:hello".toList] ∧
    (∀ n ∈ [Note.mk "a".toList false "2024-01-01 10".toList "20:30:hello".toList],
      n.Content.getLast? ≠ some '\r') ∧
    (∀ n ∈ [Note.mk "a".toList false "2024-01-01 10".toList "20:30:hello".toList],
      byteLen (recordLine n) ≤ maxScanTokenSize) ∧
    loadNotes (some (saveNotes
        [Note.mk "a".toList false "2024-01-01 10".toList "20:30:hello".toList])) =
      some [Note.mk "a".toList false "2024-01-01 10".toList "20:30:hello".toList] :=
  ⟨by decide, by decide, by decide,
   reload_fixed_point "junk\na:yes:2024-01-01 10:20:30:hello\r\n".toList
     [Note.mk "a".toList false "2024-01-01 10".toList "20:30:hello".toList]
     (by decide) (by decide) (by decide)⟩

/-- A single record that does not fit into the buffer of the scanner, whatever
field makes it long, makes `loadNotes` end in the exit of the process. -/
theorem loadNotes_body_too_long (note : Note) (hnl : '\n' ∉ recordBody note)
    (hlen : maxScanTokenSize ≤ byteLen (recordBody note)) :
    loadNotes (some (saveNotes [note])) = none := by
  have hb : ¬ byteLen (recordBody note) < maxScanTokenSize := by omega
  have hs : scanLines (saveNotes [note]) = none := by
    unfold scanLines
    rw [saveNotes, recordLine_eq, List.append_assoc, List.singleton_append,
      scanLinesFrom_line _ _ hnl, List.nil_append, if_neg hb]
  unfold loadNotes
  simp only [hs]

/-- A line of 65535 bytes with an empty flag token is read, but the record
written for the loaded note, with the flag token "false", has 65540 bytes and
is not read again. -/
theorem reload_outgrows_buffer (d : GoString) (hn : '\n' ∉ d) (hr : '\r' ∉ d)
    (hlen : byteLen d = 65530) :
    loadNotes (some ("a::t:".toList ++ d ++ "\n".toList)) =
        some [Note.mk "a".toList false "t".toList d] ∧
      loadNotes (some (saveNotes [Note.mk "a".toList false "t".toList d])) = none := by
  constructor
  · have hline : "a::t:".toList ++ d ++ "\n".toList =
        (['a'] ++ ':' :: ([] ++ ':' :: (['t'] ++ ':' :: d))) ++ '\n' :: [] := rfl
    have hnl : '\n' ∉ ['a'] ++ ':' :: ([] ++ ':' :: (['t'] ++ ':' :: d)) := by
      simp only [List.mem_append, List.mem_cons, List.mem_singleton, List.not_mem_nil, not_or]
      exact ⟨by decide, by decide, ⟨not_false, by decide, by decide, by decide, hn⟩⟩
    have hcr : '\r' ∉ ['a'] ++ ':' :: ([] ++ ':' :: (['t'] ++ ':' :: d)) := by
      simp only [List.mem_append, List.mem_cons, List.mem_singleton, List.not_mem_nil, not_or]
      exact ⟨by decide, by decide, ⟨not_false, by decide, by decide, by decide, hr⟩⟩
    have hb : byteLen ([] ++ (['a'] ++ ':' :: ([] ++ ':' :: (['t'] ++ ':' :: d)))) <
        maxScanTokenSize := by
      have : byteLen ([] ++ (['a'] ++ ':' :: ([] ++ ':' :: (['t'] ++ ':' :: d)))) =
          5 + byteLen d := by
        show byteLen ("a::t:".toList ++ d) = _
        rw [byteLen_append]
        rfl
      rw [this, hlen]
      decide
    have hs : scanLines ("a::t:".toList ++ d ++ "\n".toList) =
        some [['a'] ++ ':' :: ([] ++ ':' :: (['t'] ++ ':' :: d))] := by
      unfold scanLines
      rw [hline, scanLinesFrom_line _ _ hnl, if_pos hb, List.nil_append,
        dropCR_of_not_mem _ hcr]
      rfl
    unfold loadNotes
    simp only [hs]
    rw [loadLines, parseLine_four _ _ _ _ (by decide) (by decide) (by decide)]
    rfl
  · apply loadNotes_body_too_long
    · have h1 : '\n' ∉ "a".toList := by decide
      have h2 : '\n' ∉ "t".toList := by decide
      exact not_mem_recordBody _ (Or.inl rfl) _ h1 h2 hn
    · have : byteLen (recordBody (Note.mk "a".toList false "t".toList d)) = 10 + byteLen d := by
        show byteLen ("a:false:t:".toList ++ d) = _
        rw [byteLen_append]
        rfl
      rw [this, hlen]
      decide

/-- C19, as stated, fails.  A line that ends in two carriage returns is loaded
with one of them as the last character of the content, and saving and loading
again drops that one too.  A line of 65535 bytes with the flag token empty is
loaded, but the line saved for it, with the flag token "false", is too long
for the scanner, and the next load ends in the exit of the process. -/
theorem reload_changes_notes :
    (loadNotes (some "a:false:t:x\r\r\n".toList) =
        some [Note.mk "a".toList false "t".toList "x\r".toList] ∧
      loadNotes (some (saveNotes [Note.mk "a".toList false "t".toList "x\r".toList])) =
        some [Note.mk "a".toList false "t".toList "x".toList] ∧
      [Note.mk "a".toList false "t".toList "x".toList] ≠
        [Note.mk "a".toList false "t".toList "x\r".toList]) ∧
    (loadNotes (some ("a::t:".toList ++ List.replicate 65530 'x' ++ "\n".toList)) =
        some [Note.mk "a".toList false "t".toList (List.replicate 65530 'x')] ∧
      loadNotes (some (saveNotes
        [Note.mk "a".toList false "t".toList (List.replicate 65530 'x')])) = none) := by
  have hx : ∀ c : Char, c ≠ 'x' → c ∉ List.replicate 65530 'x' :=
    fun c hc hm => hc (List.eq_of_mem_replicate hm)
  exact ⟨by decide,
    reload_outgrows_buffer (List.replicate 65530 'x') (hx _ (by decide)) (hx _ (by decide))
      (byteLen_replicate_x 65530)⟩

end NotesTool
